import Mathlib

/-!
Verification of the frege-rs core: the parser/AST-builder of
`src/src/parser.rs` and the truth-tree data structure of
`src/src/validity/truth_tree/mod.rs`, shallowly embedded in Lean.

The pest grammar file (`GRAMMAR.pest`) is not among the provided sources, so
the concrete syntax tree produced by the pest phase is modelled from the
spec's EBNF (spec §4.A-B) as the `CST*` types below; the `*_into_ast`
lowering functions are translated directly from `parser.rs`.  Rust panics
(`unwrap` on numeral parsing, `unreachable!` in the codepoint tables,
`pop().unwrap()`) are modelled as distinguished `Outcome` values so that the
difference between a returned `ParseError` and an abort stays observable.
-/

namespace Frege

/-- AST subscript: `pub struct Subscript(pub Option<u64>)` (parser.rs:2).
Values are always < 2^64 on the Rust side; overflow panics during decoding,
so plain `Nat` is faithful for every value that actually reaches this type. -/
structure Subscript where
  val : Option Nat
deriving DecidableEq, Repr

/-- `impl PartialEq<u64> for Subscript` (parser.rs:4-11): a Subscript equals a
bare integer iff it wraps a present value equal to it. -/
def Subscript.eqU64 (s : Subscript) (rhs : Nat) : Bool :=
  match s.val with
  | some lhs => lhs == rhs
  | none => false

/-- `pub struct SimpleStatementLetter(pub char, pub Subscript)` (parser.rs:14). -/
structure SimpleStatementLetter where
  letter : Char
  sub : Subscript
deriving DecidableEq, Repr

/-- `pub struct SingularTerm(pub char, pub Subscript)` (parser.rs:17). -/
structure SingularTerm where
  letter : Char
  sub : Subscript
deriving DecidableEq, Repr

/-- `pub struct Variable(pub char, pub Subscript)` (parser.rs:20). -/
structure Variable where
  letter : Char
  sub : Subscript
deriving DecidableEq, Repr

/-- `pub struct Degree(pub u64)` (parser.rs:23). -/
structure Degree where
  val : Nat
deriving DecidableEq, Repr

/-- `pub struct PredicateLetter(pub char, pub Subscript, pub Degree)`
(parser.rs:32). -/
structure PredicateLetter where
  letter : Char
  sub : Subscript
  degree : Degree
deriving DecidableEq, Repr

/-- `pub enum Term` (parser.rs:41-44). -/
inductive Term where
  | singularTerm (t : SingularTerm)
  | var (v : Variable)
deriving DecidableEq, Repr

/-- `pub enum Predicate` (parser.rs:59-65). -/
inductive Predicate where
  | simple (letter : PredicateLetter) (terms : List Term)
  | conjunctive (l r : Predicate)
  | negative (p : Predicate)
  | disjunctive (l r : Predicate)
  | conditional (l r : Predicate)
deriving DecidableEq, Repr

/-- `pub enum Statement` (parser.rs:47-56). -/
inductive Statement where
  | simple (letter : SimpleStatementLetter)
  | singular (letter : PredicateLetter) (terms : List SingularTerm)
  | logicalConjunction (l r : Statement)
  | logicalNegation (s : Statement)
  | logicalDisjunction (l r : Statement)
  | logicalConditional (l r : Statement)
  | existential (v : Variable) (p : Predicate)
  | universal (v : Variable) (p : Predicate)
deriving DecidableEq, Repr

/-- `pub enum ParseTree` (parser.rs:35-38). -/
inductive ParseTree where
  | statementSet (statements : List Statement)
  | argument (premises : List Statement) (conclusion : Statement)
deriving DecidableEq, Repr

/-- Result of lowering a CST node.  `degreeMismatch` and `freeVariable` are
the two custom `Error` values built in parser.rs:301 and parser.rs:525; the
`panic*` constructors model Rust aborts, not returned errors:
`panicBadDigit` is the `unreachable!` arm of a codepoint table
(parser.rs:354, parser.rs:385), `panicNumeral` is `.parse::<u64>().unwrap()`
failing (parser.rs:357-358, parser.rs:388-389), `panicPop` is
`statements.pop().unwrap()` on an empty vector (parser.rs:568). -/
inductive Outcome where
  | degreeMismatch
  | freeVariable
  | panicBadDigit
  | panicNumeral
  | panicPop
deriving DecidableEq, Repr

deriving instance DecidableEq for Except

/-- Subscript codepoint table (parser.rs:374-385): U+2080..U+2089. -/
def subscriptDigit : Char → Option Nat
  | '₀' => some 0
  | '₁' => some 1
  | '₂' => some 2
  | '₃' => some 3
  | '₄' => some 4
  | '₅' => some 5
  | '₆' => some 6
  | '₇' => some 7
  | '₈' => some 8
  | '₉' => some 9
  | _ => none

/-- Superscript codepoint table (parser.rs:343-354): U+2070, U+00B9, U+00B2,
U+00B3, U+2074..U+2079. -/
def superscriptDigit : Char → Option Nat
  | '⁰' => some 0
  | '¹' => some 1
  | '²' => some 2
  | '³' => some 3
  | '⁴' => some 4
  | '⁵' => some 5
  | '⁶' => some 6
  | '⁷' => some 7
  | '⁸' => some 8
  | '⁹' => some 9
  | _ => none

/-- The `chars().map(|x| match x ...)` step: each codepoint is looked up in
the table; a character outside the table hits an `unreachable!` arm. -/
def decodeDigitChars (tbl : Char → Option Nat) : List Char → Except Outcome (List Nat)
  | [] => .ok []
  | c :: rest =>
    match tbl c with
    | none => .error .panicBadDigit
    | some d =>
      match decodeDigitChars tbl rest with
      | .error e => .error e
      | .ok ds => .ok (d :: ds)

/-- Decimal value of a digit list, as `str::parse::<u64>` computes it. -/
def digitsToNat (ds : List Nat) : Nat :=
  ds.foldl (fun a d => a * 10 + d) 0

/-- `.collect::<String>().parse::<u64>().unwrap()`: parsing the digit string
fails (and the `unwrap` panics) when the string is empty or the value does
not fit in a u64. -/
def parseU64 (ds : List Nat) : Except Outcome Nat :=
  if ds = [] then .error .panicNumeral
  else if digitsToNat ds < 2 ^ 64 then .ok (digitsToNat ds)
  else .error .panicNumeral

/-- Decode a numeral: codepoint table then `parse::<u64>().unwrap()`. -/
def decodeNumeral (tbl : Char → Option Nat) (s : List Char) : Except Outcome Nat :=
  match decodeDigitChars tbl s with
  | .error e => .error e
  | .ok ds => parseU64 ds

/-- `subscript_into_ast` (parser.rs:368-391). -/
def subscript_into_ast (s : List Char) : Except Outcome Subscript :=
  match decodeNumeral subscriptDigit s with
  | .error e => .error e
  | .ok v => .ok ⟨some v⟩

/-- The `match inner.peek() { Some(_) => subscript_into_ast(..), None =>
Subscript(None) }` pattern shared by the letter/term/variable lowerings. -/
def optional_subscript_into_ast : Option (List Char) → Except Outcome Subscript
  | some s => subscript_into_ast s
  | none => .ok ⟨none⟩

/-! ### Concrete syntax trees

Modelled from the spec: `GRAMMAR.pest` is not among the provided sources, so
the shape of the pest pairs consumed by the `*_into_ast` functions is taken
from the grammar in spec §4.A-B.  Numerals are kept as raw codepoint lists
(the `as_str().chars()` view the code decodes). -/

/-- CST of `predicate_letter := UPPER subscript? superscript`. -/
structure CSTPredicateLetter where
  alpha : Char
  sub : Option (List Char)
  sup : List Char
deriving DecidableEq, Repr

/-- CST of `singular_term := LOWER_TERM subscript?`. -/
structure CSTSingularTerm where
  alpha : Char
  sub : Option (List Char)
deriving DecidableEq, Repr

/-- CST of `variable := LOWER_VAR subscript?`. -/
structure CSTVariable where
  alpha : Char
  sub : Option (List Char)
deriving DecidableEq, Repr

/-- CST of `term`: a singular term or a variable. -/
inductive CSTTerm where
  | singular (t : CSTSingularTerm)
  | var (v : CSTVariable)
deriving DecidableEq, Repr

/-- CST of `predicate := simple_predicate | compound_predicate`. -/
inductive CSTPredicate where
  | simple (letter : CSTPredicateLetter) (terms : List CSTTerm)
  | conjunctive (l r : CSTPredicate)
  | negative (p : CSTPredicate)
  | disjunctive (l r : CSTPredicate)
  | conditional (l r : CSTPredicate)
deriving DecidableEq, Repr

/-- CST of `statement`.  Quantifiers appear only at statement level; the
grammar has no quantifier inside `predicate`. -/
inductive CSTStatement where
  | simpleLetter (alpha : Char) (sub : Option (List Char))
  | singular (letter : CSTPredicateLetter) (terms : List CSTSingularTerm)
  | conjunction (l r : CSTStatement)
  | negation (s : CSTStatement)
  | disjunction (l r : CSTStatement)
  | conditional (l r : CSTStatement)
  | existential (v : CSTVariable) (p : CSTPredicate)
  | universal (v : CSTVariable) (p : CSTPredicate)
deriving DecidableEq, Repr

/-- CST of `input := statement_set | argument`.  For `argument` the list is
the flat sequence of statements exactly as the pest iterator yields it
(premises in source order, conclusion last — guaranteed by the grammar). -/
inductive CSTInput where
  | statementSet (statements : List CSTStatement)
  | argument (statements : List CSTStatement)
deriving DecidableEq, Repr

/-- `predicate_letter_into_ast` (parser.rs:325-366): letter, optional
subscript, then the superscript numeral as the degree. -/
def predicate_letter_into_ast (p : CSTPredicateLetter) : Except Outcome PredicateLetter :=
  match optional_subscript_into_ast p.sub with
  | .error e => .error e
  | .ok sub =>
    match decodeNumeral superscriptDigit p.sup with
    | .error e => .error e
    | .ok d => .ok ⟨p.alpha, sub, ⟨d⟩⟩

/-- `singular_term_into_ast` (parser.rs:310-323). -/
def singular_term_into_ast (t : CSTSingularTerm) : Except Outcome SingularTerm :=
  match optional_subscript_into_ast t.sub with
  | .error e => .error e
  | .ok sub => .ok ⟨t.alpha, sub⟩

/-- `variable_into_ast` (parser.rs:534-547). -/
def variable_into_ast (v : CSTVariable) : Except Outcome Variable :=
  match optional_subscript_into_ast v.sub with
  | .error e => .error e
  | .ok sub => .ok ⟨v.alpha, sub⟩

/-- One arm of the term lowering inside `simple_predicate_into_ast`
(parser.rs:506-512). -/
def term_into_ast : CSTTerm → Except Outcome Term
  | .singular t =>
    match singular_term_into_ast t with
    | .error e => .error e
    | .ok t' => .ok (.singularTerm t')
  | .var v =>
    match variable_into_ast v with
    | .error e => .error e
    | .ok v' => .ok (.var v')

/-- The `inner.map(..).collect::<Vec<Term>>()` of parser.rs:506-512 (a panic
in any element aborts the collection). -/
def lowerTerms : List CSTTerm → Except Outcome (List Term)
  | [] => .ok []
  | t :: rest =>
    match term_into_ast t with
    | .error e => .error e
    | .ok t' =>
      match lowerTerms rest with
      | .error e => .error e
      | .ok ts => .ok (t' :: ts)

/-- The `inner.map(..).collect::<Vec<SingularTerm>>()` of parser.rs:293-298. -/
def lowerSingularTerms : List CSTSingularTerm → Except Outcome (List SingularTerm)
  | [] => .ok []
  | t :: rest =>
    match singular_term_into_ast t with
    | .error e => .error e
    | .ok t' =>
      match lowerSingularTerms rest with
      | .error e => .error e
      | .ok ts => .ok (t' :: ts)

/-- The scope check of parser.rs:521-524:
`terms.iter().all(|x| match x { Term::Variable(var) => stack.contains(var), _ => true })`. -/
def termsInScope (stack : List Variable) (terms : List Term) : Bool :=
  terms.all fun t =>
    match t with
    | .var v => stack.any fun w => decide (w = v)
    | _ => true

/-- `simple_predicate_into_ast` (parser.rs:495-532): lower the letter, then
every term, then check degree (parser.rs:514-519), then check scope
(parser.rs:521-529). -/
def simple_predicate_into_ast (stack : List Variable) (letter : CSTPredicateLetter)
    (terms : List CSTTerm) : Except Outcome Predicate :=
  match predicate_letter_into_ast letter with
  | .error e => .error e
  | .ok pl =>
    match lowerTerms terms with
    | .error e => .error e
    | .ok ts =>
      if pl.degree.val ≠ ts.length then .error .degreeMismatch
      else if ¬ termsInScope stack ts then .error .freeVariable
      else .ok (.simple pl ts)

/-- `predicate_into_ast` / `compound_predicate_into_ast` and the four
connective lowerings (parser.rs:393-493), inlined into one structural
recursion.  The binary arms pass each side `stack.clone()` — pure values
here, so the same list. -/
def predicate_into_ast (stack : List Variable) : CSTPredicate → Except Outcome Predicate
  | .simple letter terms => simple_predicate_into_ast stack letter terms
  | .conjunctive l r =>
    match predicate_into_ast stack l with
    | .error e => .error e
    | .ok lp =>
      match predicate_into_ast stack r with
      | .error e => .error e
      | .ok rp => .ok (.conjunctive lp rp)
  | .negative p =>
    match predicate_into_ast stack p with
    | .error e => .error e
    | .ok rp => .ok (.negative rp)
  | .disjunctive l r =>
    match predicate_into_ast stack l with
    | .error e => .error e
    | .ok lp =>
      match predicate_into_ast stack r with
      | .error e => .error e
      | .ok rp => .ok (.disjunctive lp rp)
  | .conditional l r =>
    match predicate_into_ast stack l with
    | .error e => .error e
    | .ok lp =>
      match predicate_into_ast stack r with
      | .error e => .error e
      | .ok rp => .ok (.conditional lp rp)

/-- `singular_statement_into_ast` (parser.rs:286-308): letter, terms, degree
check.  There is no scope check here — singular statements take singular
terms only. -/
def singular_statement_into_ast (letter : CSTPredicateLetter)
    (terms : List CSTSingularTerm) : Except Outcome Statement :=
  match predicate_letter_into_ast letter with
  | .error e => .error e
  | .ok pl =>
    match lowerSingularTerms terms with
    | .error e => .error e
    | .ok ts =>
      if pl.degree.val ≠ ts.length then .error .degreeMismatch
      else .ok (.singular pl ts)

/-- `statement_into_ast` with `complex_statement_into_ast`,
`simple_statement_into_ast`, the four connective lowerings and the two
quantifier lowerings (parser.rs:156-284) inlined.  The quantifier arms
(parser.rs:236-262) lower the bound variable, seed the scope stack with it,
and lower the body with that stack. -/
def statement_into_ast : CSTStatement → Except Outcome Statement
  | .simpleLetter alpha sub =>
    match optional_subscript_into_ast sub with
    | .error e => .error e
    | .ok s => .ok (.simple ⟨alpha, s⟩)
  | .singular letter terms => singular_statement_into_ast letter terms
  | .conjunction l r =>
    match statement_into_ast l with
    | .error e => .error e
    | .ok ls =>
      match statement_into_ast r with
      | .error e => .error e
      | .ok rs => .ok (.logicalConjunction ls rs)
  | .negation s =>
    match statement_into_ast s with
    | .error e => .error e
    | .ok rs => .ok (.logicalNegation rs)
  | .disjunction l r =>
    match statement_into_ast l with
    | .error e => .error e
    | .ok ls =>
      match statement_into_ast r with
      | .error e => .error e
      | .ok rs => .ok (.logicalDisjunction ls rs)
  | .conditional l r =>
    match statement_into_ast l with
    | .error e => .error e
    | .ok ls =>
      match statement_into_ast r with
      | .error e => .error e
      | .ok rs => .ok (.logicalConditional ls rs)
  | .existential v p =>
    match variable_into_ast v with
    | .error e => .error e
    | .ok v' =>
      match predicate_into_ast [v'] p with
      | .error e => .error e
      | .ok p' => .ok (.existential v' p')
  | .universal v p =>
    match variable_into_ast v with
    | .error e => .error e
    | .ok v' =>
      match predicate_into_ast [v'] p with
      | .error e => .error e
      | .ok p' => .ok (.universal v' p')

/-- The statement loop shared by `statement_set_into_ast` (parser.rs:141-154)
and `argument_into_ast` (parser.rs:552-564): lower each statement in order,
returning the first error. -/
def lowerStatements : List CSTStatement → Except Outcome (List Statement)
  | [] => .ok []
  | s :: rest =>
    match statement_into_ast s with
    | .error e => .error e
    | .ok st =>
      match lowerStatements rest with
      | .error e => .error e
      | .ok sts => .ok (st :: sts)

/-- `statement_set_into_ast` (parser.rs:141-154). -/
def statement_set_into_ast (sts : List CSTStatement) : Except Outcome ParseTree :=
  match lowerStatements sts with
  | .error e => .error e
  | .ok l => .ok (.statementSet l)

/-- `argument_into_ast` (parser.rs:549-571): lower all statements, then pop
the last as the conclusion (`statements.pop().unwrap()`, parser.rs:568). -/
def argument_into_ast (sts : List CSTStatement) : Except Outcome ParseTree :=
  match lowerStatements sts with
  | .error e => .error e
  | .ok l =>
    match l.getLast? with
    | some c => .ok (.argument l.dropLast c)
    | none => .error .panicPop

/-- `into_ast` (parser.rs:132-139), the semantic phase of `Parser::parse`:
`parse` first runs the pest grammar (modelled away into the CST) and on
success calls this. -/
def into_ast : CSTInput → Except Outcome ParseTree
  | .statementSet sts => statement_set_into_ast sts
  | .argument sts => argument_into_ast sts

/-! ### Properties of the produced AST -/

/-- Degree agreement at every `Predicate::Simple` node. -/
def Predicate.degreeOk : Predicate → Bool
  | .simple pl ts => pl.degree.val == ts.length
  | .conjunctive l r => l.degreeOk && r.degreeOk
  | .negative p => p.degreeOk
  | .disjunctive l r => l.degreeOk && r.degreeOk
  | .conditional l r => l.degreeOk && r.degreeOk

/-- Degree agreement at every `Statement::Singular` node and inside every
predicate body. -/
def Statement.degreeOk : Statement → Bool
  | .simple _ => true
  | .singular pl ts => pl.degree.val == ts.length
  | .logicalConjunction l r => l.degreeOk && r.degreeOk
  | .logicalNegation s => s.degreeOk
  | .logicalDisjunction l r => l.degreeOk && r.degreeOk
  | .logicalConditional l r => l.degreeOk && r.degreeOk
  | .existential _ p => p.degreeOk
  | .universal _ p => p.degreeOk

/-- Degree agreement everywhere in a parse tree. -/
def ParseTree.degreeOk : ParseTree → Bool
  | .statementSet l => l.all Statement.degreeOk
  | .argument ps c => ps.all Statement.degreeOk && c.degreeOk

/-- Every variable term occurring in the predicate is one of the variables in
`stack` (compared by letter and subscript, i.e. structural equality). -/
def Predicate.varsBound (stack : List Variable) : Predicate → Bool
  | .simple _ ts => termsInScope stack ts
  | .conjunctive l r => l.varsBound stack && r.varsBound stack
  | .negative p => p.varsBound stack
  | .disjunctive l r => l.varsBound stack && r.varsBound stack
  | .conditional l r => l.varsBound stack && r.varsBound stack

/-- Every variable occurring inside a `Predicate` of the statement equals the
variable bound by its enclosing quantifier. -/
def Statement.scopeOk : Statement → Bool
  | .simple _ => true
  | .singular _ _ => true
  | .logicalConjunction l r => l.scopeOk && r.scopeOk
  | .logicalNegation s => s.scopeOk
  | .logicalDisjunction l r => l.scopeOk && r.scopeOk
  | .logicalConditional l r => l.scopeOk && r.scopeOk
  | .existential v p => p.varsBound [v]
  | .universal v p => p.varsBound [v]

/-- Scope invariant everywhere in a parse tree. -/
def ParseTree.scopeOk : ParseTree → Bool
  | .statementSet l => l.all Statement.scopeOk
  | .argument ps c => ps.all Statement.scopeOk && c.scopeOk

/-- Every `PredicateLetter` occurring in the predicate has degree ≥ 1. -/
def Predicate.degreesPos : Predicate → Bool
  | .simple pl _ => decide (1 ≤ pl.degree.val)
  | .conjunctive l r => l.degreesPos && r.degreesPos
  | .negative p => p.degreesPos
  | .disjunctive l r => l.degreesPos && r.degreesPos
  | .conditional l r => l.degreesPos && r.degreesPos

/-- Every `PredicateLetter` occurring in the statement has degree ≥ 1. -/
def Statement.degreesPos : Statement → Bool
  | .simple _ => true
  | .singular pl _ => decide (1 ≤ pl.degree.val)
  | .logicalConjunction l r => l.degreesPos && r.degreesPos
  | .logicalNegation s => s.degreesPos
  | .logicalDisjunction l r => l.degreesPos && r.degreesPos
  | .logicalConditional l r => l.degreesPos && r.degreesPos
  | .existential _ p => p.degreesPos
  | .universal _ p => p.degreesPos

/-- Every `PredicateLetter` occurring in the parse tree has degree ≥ 1. -/
def ParseTree.degreesPos : ParseTree → Bool
  | .statementSet l => l.all Statement.degreesPos
  | .argument ps c => ps.all Statement.degreesPos && c.degreesPos

/-! ### Properties of the concrete input -/

/-- The numeral decodes without hitting a panic (all codepoints are in the
table, the digit list is non-empty, and the value fits in a u64). -/
def numeralOk (tbl : Char → Option Nat) (s : List Char) : Bool :=
  match decodeNumeral tbl s with
  | .ok _ => true
  | .error _ => false

/-- An optional subscript decodes without panicking. -/
def optSubOk : Option (List Char) → Bool
  | some s => numeralOk subscriptDigit s
  | none => true

/-- All numerals of a predicate letter decode. -/
def CSTPredicateLetter.numeralsOk (p : CSTPredicateLetter) : Bool :=
  optSubOk p.sub && numeralOk superscriptDigit p.sup

/-- All numerals of a singular term decode. -/
def CSTSingularTerm.numeralsOk (t : CSTSingularTerm) : Bool :=
  optSubOk t.sub

/-- All numerals of a variable decode. -/
def CSTVariable.numeralsOk (v : CSTVariable) : Bool :=
  optSubOk v.sub

/-- All numerals of a term decode. -/
def CSTTerm.numeralsOk : CSTTerm → Bool
  | .singular t => t.numeralsOk
  | .var v => v.numeralsOk

/-- All numerals in the predicate decode. -/
def CSTPredicate.numeralsOk : CSTPredicate → Bool
  | .simple pl ts => pl.numeralsOk && ts.all CSTTerm.numeralsOk
  | .conjunctive l r => l.numeralsOk && r.numeralsOk
  | .negative p => p.numeralsOk
  | .disjunctive l r => l.numeralsOk && r.numeralsOk
  | .conditional l r => l.numeralsOk && r.numeralsOk

/-- All numerals in the statement decode. -/
def CSTStatement.numeralsOk : CSTStatement → Bool
  | .simpleLetter _ sub => optSubOk sub
  | .singular pl ts => pl.numeralsOk && ts.all CSTSingularTerm.numeralsOk
  | .conjunction l r => l.numeralsOk && r.numeralsOk
  | .negation s => s.numeralsOk
  | .disjunction l r => l.numeralsOk && r.numeralsOk
  | .conditional l r => l.numeralsOk && r.numeralsOk
  | .existential v p => v.numeralsOk && p.numeralsOk
  | .universal v p => v.numeralsOk && p.numeralsOk

/-- All numerals in the input decode. -/
def CSTInput.numeralsOk : CSTInput → Bool
  | .statementSet l => l.all CSTStatement.numeralsOk
  | .argument l => l.all CSTStatement.numeralsOk

/-- The degree the superscript of this predicate letter denotes, when it
decodes. -/
def CSTPredicateLetter.degreeVal? (p : CSTPredicateLetter) : Option Nat :=
  match decodeNumeral superscriptDigit p.sup with
  | .ok d => some d
  | .error _ => none

/-- The site `letter terms…` violates degree agreement: its superscript
decodes to a degree different from the number of terms. -/
def degreeVioAt (p : CSTPredicateLetter) (n : Nat) : Bool :=
  match p.degreeVal? with
  | some d => d != n
  | none => false

/-- Some `simple_predicate` site in the predicate violates degree
agreement. -/
def CSTPredicate.hasDegreeVio : CSTPredicate → Bool
  | .simple pl ts => degreeVioAt pl ts.length
  | .conjunctive l r => l.hasDegreeVio || r.hasDegreeVio
  | .negative p => p.hasDegreeVio
  | .disjunctive l r => l.hasDegreeVio || r.hasDegreeVio
  | .conditional l r => l.hasDegreeVio || r.hasDegreeVio

/-- Some `singular_statement` or `simple_predicate` site in the statement
violates degree agreement. -/
def CSTStatement.hasDegreeVio : CSTStatement → Bool
  | .simpleLetter _ _ => false
  | .singular pl ts => degreeVioAt pl ts.length
  | .conjunction l r => l.hasDegreeVio || r.hasDegreeVio
  | .negation s => s.hasDegreeVio
  | .disjunction l r => l.hasDegreeVio || r.hasDegreeVio
  | .conditional l r => l.hasDegreeVio || r.hasDegreeVio
  | .existential _ p => p.hasDegreeVio
  | .universal _ p => p.hasDegreeVio

/-- Some site in the input violates degree agreement. -/
def CSTInput.hasDegreeVio : CSTInput → Bool
  | .statementSet l => l.any CSTStatement.hasDegreeVio
  | .argument l => l.any CSTStatement.hasDegreeVio

/-- The decoded form of a concrete variable, when its subscript decodes. -/
def cstVarDecode? (v : CSTVariable) : Option Variable :=
  match variable_into_ast v with
  | .ok w => some w
  | .error _ => none

/-- The concrete variable occurrence is in scope: it decodes, and some
variable of the concrete scope stack decodes to the same value. -/
def cstInScope (stack : List CSTVariable) (v : CSTVariable) : Bool :=
  match cstVarDecode? v with
  | some w => stack.any fun u => decide (cstVarDecode? u = some w)
  | none => false

/-- The concrete term is a variable occurrence that is out of scope. -/
def CSTTerm.outOfScope (stack : List CSTVariable) : CSTTerm → Bool
  | .var v => ! cstInScope stack v
  | .singular _ => false

/-- Some `simple_predicate` site in the predicate mentions a variable not in
the given scope stack. -/
def CSTPredicate.hasScopeVio (stack : List CSTVariable) : CSTPredicate → Bool
  | .simple _ ts => ts.any (CSTTerm.outOfScope stack)
  | .conjunctive l r => l.hasScopeVio stack || r.hasScopeVio stack
  | .negative p => p.hasScopeVio stack
  | .disjunctive l r => l.hasScopeVio stack || r.hasScopeVio stack
  | .conditional l r => l.hasScopeVio stack || r.hasScopeVio stack

/-- Some variable term in the statement is not bound by its enclosing
quantifier. -/
def CSTStatement.hasScopeVio : CSTStatement → Bool
  | .simpleLetter _ _ => false
  | .singular _ _ => false
  | .conjunction l r => l.hasScopeVio || r.hasScopeVio
  | .negation s => s.hasScopeVio
  | .disjunction l r => l.hasScopeVio || r.hasScopeVio
  | .conditional l r => l.hasScopeVio || r.hasScopeVio
  | .existential v p => p.hasScopeVio [v]
  | .universal v p => p.hasScopeVio [v]

/-- Some variable term in the input is free. -/
def CSTInput.hasScopeVio : CSTInput → Bool
  | .statementSet l => l.any CSTStatement.hasScopeVio
  | .argument l => l.any CSTStatement.hasScopeVio

/-- Every predicate-application site carries at least one term (the grammar's
`singular_term+` and `term+`; spec §4.A-B). -/
def CSTPredicate.termsNonempty : CSTPredicate → Bool
  | .simple _ ts => ! ts.isEmpty
  | .conjunctive l r => l.termsNonempty && r.termsNonempty
  | .negative p => p.termsNonempty
  | .disjunctive l r => l.termsNonempty && r.termsNonempty
  | .conditional l r => l.termsNonempty && r.termsNonempty

/-- Every predicate-application site in the statement carries at least one
term. -/
def CSTStatement.termsNonempty : CSTStatement → Bool
  | .simpleLetter _ _ => true
  | .singular _ ts => ! ts.isEmpty
  | .conjunction l r => l.termsNonempty && r.termsNonempty
  | .negation s => s.termsNonempty
  | .disjunction l r => l.termsNonempty && r.termsNonempty
  | .conditional l r => l.termsNonempty && r.termsNonempty
  | .existential _ p => p.termsNonempty
  | .universal _ p => p.termsNonempty

/-- Every predicate-application site in the input carries at least one
term. -/
def CSTInput.termsNonempty : CSTInput → Bool
  | .statementSet l => l.all CSTStatement.termsNonempty
  | .argument l => l.all CSTStatement.termsNonempty

/-! ### The order in which the input is checked

The lowering reports the first check that fails.  To state which violation
"comes first", `firstVio` walks the concrete input in exactly the order the
`*_into_ast` functions visit it — subscript before superscript, predicate
letter before terms, terms left-to-right, the degree check before the scope
check at each site, left operand before right operand, premises before
conclusion before the final pop — and records the first failing check.  The
characterisation theorem `outcomeOf_into_ast` below proves, against the
lowering itself, that the outcome of `into_ast` is exactly this first
violation. -/

/-- The observable outcome of a lowering step: `none` for success, the error
otherwise. -/
def outcomeOf {α : Type} : Except Outcome α → Option Outcome
  | .ok _ => none
  | .error e => some e

/-- First failing check of a predicate letter: its subscript numeral, then
its superscript numeral. -/
def CSTPredicateLetter.vio (p : CSTPredicateLetter) : Option Outcome :=
  outcomeOf (optional_subscript_into_ast p.sub) <|>
    outcomeOf (decodeNumeral superscriptDigit p.sup)

/-- First failing check among the terms of a `simple_predicate` site, in
order. -/
def termsVio : List CSTTerm → Option Outcome
  | [] => none
  | t :: rest => outcomeOf (term_into_ast t) <|> termsVio rest

/-- First failing check among the terms of a `singular_statement` site, in
order. -/
def stermsVio : List CSTSingularTerm → Option Outcome
  | [] => none
  | t :: rest => outcomeOf (singular_term_into_ast t) <|> stermsVio rest

/-- Outcome of the degree check at a site with `n` terms. -/
def degVioOutcome (pl : CSTPredicateLetter) (n : Nat) : Option Outcome :=
  if degreeVioAt pl n then some .degreeMismatch else none

/-- Outcome of the scope check at a site. -/
def scopeVioOutcome (stack : List CSTVariable) (ts : List CSTTerm) : Option Outcome :=
  if ts.any (CSTTerm.outOfScope stack) then some .freeVariable else none

/-- First failing check inside a predicate, in lowering order. -/
def CSTPredicate.firstVio (stack : List CSTVariable) : CSTPredicate → Option Outcome
  | .simple pl ts =>
    pl.vio <|> termsVio ts <|> degVioOutcome pl ts.length <|> scopeVioOutcome stack ts
  | .conjunctive l r => l.firstVio stack <|> r.firstVio stack
  | .negative p => p.firstVio stack
  | .disjunctive l r => l.firstVio stack <|> r.firstVio stack
  | .conditional l r => l.firstVio stack <|> r.firstVio stack

/-- First failing check inside a statement, in lowering order. -/
def CSTStatement.firstVio : CSTStatement → Option Outcome
  | .simpleLetter _ sub => outcomeOf (optional_subscript_into_ast sub)
  | .singular pl ts => pl.vio <|> stermsVio ts <|> degVioOutcome pl ts.length
  | .conjunction l r => l.firstVio <|> r.firstVio
  | .negation s => s.firstVio
  | .disjunction l r => l.firstVio <|> r.firstVio
  | .conditional l r => l.firstVio <|> r.firstVio
  | .existential v p => outcomeOf (variable_into_ast v) <|> p.firstVio [v]
  | .universal v p => outcomeOf (variable_into_ast v) <|> p.firstVio [v]

/-- First failing check of a statement list, in order. -/
def statementsFirstVio : List CSTStatement → Option Outcome
  | [] => none
  | s :: rest => s.firstVio <|> statementsFirstVio rest

/-- First failing check of a whole input.  For an argument the final
`pop().unwrap()` fires only after every statement lowered, and only on an
empty list. -/
def CSTInput.firstVio : CSTInput → Option Outcome
  | .statementSet l => statementsFirstVio l
  | .argument l => statementsFirstVio l <|> (if l.isEmpty then some .panicPop else none)

/-! ### The truth tree

`truth_tree/mod.rs` builds on the external `id_tree` crate and on
`branch.rs`/`iter.rs`, which are not among the provided sources.  The tree is
embedded as the arena the spec describes (§9): a flat list of records, each
holding its children's indices; `TreeId`s are the indices, the root is index
0, and `insert(..., UnderNode(p))` appends the node at the end of the arena
and its index at the end of `p`'s child list. -/

/-- Modelled from the spec: `BranchNode` of the absent `branch.rs` — a
statement plus optional provenance `(branch id, statement id)` (spec §3). -/
structure BranchNode where
  statement : Statement
  derived_from : Option (Nat × Nat)

/-- Modelled from the spec: `Branch` of the absent `branch.rs` — an ordered
list of `BranchNode`s plus a monotonic `closed` flag (spec §3, §4.E). -/
structure Branch where
  nodes : List BranchNode
  closed : Bool

/-- Modelled from the spec: `Branch::new(nodes)` (spec §4.E) — a fresh branch
is not closed. -/
def Branch.mkNew (nodes : List BranchNode) : Branch :=
  ⟨nodes, false⟩

/-- Modelled from the spec: `Branch::is_closed()` (spec §4.E). -/
def Branch.is_closed (b : Branch) : Bool :=
  b.closed

/-- Modelled from the spec: `Branch::close()` (spec §4.E) — sets the
monotonic flag. -/
def Branch.close (b : Branch) : Branch :=
  { b with closed := true }

/-- One arena record: a branch and the ids of its children, in insertion
order. -/
structure TreeNode where
  data : Branch
  children : List Nat

/-- `pub struct TruthTree { tree: Tree<Branch> }` (mod.rs:26-28), with the
`id_tree::Tree` modelled as an arena list; a `TreeId` is an index into it. -/
structure TruthTree where
  nodes : List TreeNode

/-- `TruthTree::new` (mod.rs:31-35): a single root branch. -/
def TruthTree.mkNew (main_branch : Branch) : TruthTree :=
  ⟨[⟨main_branch, []⟩]⟩

/-- `main_trunk_id` (mod.rs:38-40): the root's id. -/
def TruthTree.main_trunk_id (_ : TruthTree) : Nat :=
  0

/-- `branch_from_id` (mod.rs:136-141); `none` models the panic on an invalid
id. -/
def TruthTree.branch_from_id? (t : TruthTree) (branch_id : Nat) : Option Branch :=
  (t.nodes[branch_id]?).map TreeNode.data

/-- The child-id list of a branch (empty for an invalid id). -/
def TruthTree.childrenOf (t : TruthTree) (branch_id : Nat) : List Nat :=
  match t.nodes[branch_id]? with
  | some n => n.children
  | none => []

/-- `branch_is_last_child` (mod.rs:117-123): true iff the branch has no
children. -/
def TruthTree.branch_is_last_child (t : TruthTree) (branch_id : Nat) : Bool :=
  (t.childrenOf branch_id).isEmpty

/-- The closed flag the filter of `is_open` reads through
`branch_from_id(x).is_closed()` (mod.rs:163). -/
def TruthTree.closedAt (t : TruthTree) (branch_id : Nat) : Bool :=
  match t.branch_from_id? branch_id with
  | some b => b.is_closed
  | none => false

/-- `branch_from_id_mut(..).close()` (mod.rs:125-130 together with the absent
`Branch::close`): set the branch's closed flag; an invalid id panics in Rust
and is modelled by returning the tree unchanged. -/
def TruthTree.close_branch (t : TruthTree) (branch_id : Nat) : TruthTree :=
  match t.nodes[branch_id]? with
  | some n => ⟨t.nodes.set branch_id { n with data := n.data.close }⟩
  | none => t

/-- `append_branch_at` (mod.rs:143-158): asserts the parent is not closed
(the assert fires before any mutation, so a violation leaves the tree
unchanged — modelled by `none`), then inserts the branch as the parent's new
last child and returns its id. -/
def TruthTree.append_branch_at (t : TruthTree) (branch : Branch)
    (as_child_of_branch_id : Nat) : Option (TruthTree × Nat) :=
  match t.nodes[as_child_of_branch_id]? with
  | none => none
  | some n =>
    if n.data.is_closed then none
    else
      some (⟨(t.nodes.set as_child_of_branch_id
                { n with children := n.children ++ [t.nodes.length] }) ++ [⟨branch, []⟩]⟩,
            t.nodes.length)

/-- Modelled from the spec: the iterator behind
`traverse_downwards_branches_ids` lives in the absent `iter.rs`; the spec
(§4.F) defines it as the lazy pre-order sequence — self, then the children's
subtrees left-to-right.  The fuel argument only bounds the recursion; for
every tree reachable through the API, fuel `t.nodes.length` is enough to
exhaust the subtree (children always carry larger indices). -/
def TruthTree.preorderAux (t : TruthTree) : Nat → Nat → List Nat
  | 0, _ => []
  | fuel + 1, i => i :: ((t.childrenOf i).map (fun c => t.preorderAux fuel c)).flatten

/-- `traverse_downwards_branches_ids` (mod.rs:71-81): pre-order ids of the
subtree rooted at `branch_id`, including `branch_id` itself. -/
def TruthTree.traverse_downwards_branches_ids (t : TruthTree) (branch_id : Nat) : List Nat :=
  t.preorderAux t.nodes.length branch_id

/-- `is_open` (mod.rs:161-166): count the leaves that are not closed among
all branches below the root. -/
def TruthTree.is_open (t : TruthTree) : Bool :=
  decide (0 < ((t.traverse_downwards_branches_ids t.main_trunk_id).filter
    (fun x => t.branch_is_last_child x && ! t.closedAt x)).length)

/-- The trees reachable through the public construction API: `new`, then any
interleaving of `append_branch_at` (when it succeeds) and branch closing. -/
inductive Reachable : TruthTree → Prop
  | new (b : Branch) : Reachable (TruthTree.mkNew b)
  | append (t : TruthTree) (b : Branch) (pid : Nat) (t' : TruthTree) (nid : Nat) :
      Reachable t → t.append_branch_at b pid = some (t', nid) → Reachable t'
  | close (t : TruthTree) (i : Nat) : Reachable t → Reachable (t.close_branch i)

/-- Rose tree of branch ids, used to state the shape invariant of reachable
truth trees. -/
inductive RTree where
  | node (rid : Nat) (children : List RTree)

mutual

/-- Pre-order id list of a rose tree. -/
def RTree.flatten : RTree → List Nat
  | .node i cs => i :: RTree.flattenList cs

/-- Concatenated pre-order id lists of a forest. -/
def RTree.flattenList : List RTree → List Nat
  | [] => []
  | c :: cs => c.flatten ++ RTree.flattenList cs

end

/-- Root id of a rose tree. -/
def RTree.rootId : RTree → Nat
  | .node i _ => i

/-- The rose tree describes the arena: each node's id is a valid index whose
child list is exactly the listed subtrees' roots, in order. -/
inductive Agrees (t : TruthTree) : RTree → Prop
  | node (i : Nat) (cs : List RTree) :
      i < t.nodes.length →
      t.childrenOf i = cs.map RTree.rootId →
      (∀ c ∈ cs, Agrees t c) →
      Agrees t (.node i cs)

/-- Shape invariant of reachable trees: some rose tree rooted at 0 describes
the arena and enumerates every index exactly once. -/
def TruthTree.WF (t : TruthTree) : Prop :=
  ∃ r : RTree, r.rootId = 0 ∧ Agrees t r ∧ r.flatten.Perm (List.range t.nodes.length)

/-! ### Parser lemmas -/

/-- A successfully lowered predicate letter's degree is the decoded value of
its superscript. -/
theorem degreeVal?_of_ok {letter : CSTPredicateLetter} {pl : PredicateLetter}
    (h : predicate_letter_into_ast letter = .ok pl) :
    letter.degreeVal? = some pl.degree.val := by
  unfold predicate_letter_into_ast at h
  unfold CSTPredicateLetter.degreeVal?
  cases hs : optional_subscript_into_ast letter.sub <;> rw [hs] at h
  · exact absurd h (by simp)
  · cases hd : decodeNumeral superscriptDigit letter.sup <;> rw [hd] at h
    · exact absurd h (by simp)
    · cases h
      rfl

/-- A decodable optional subscript lowers successfully. -/
theorem optsub_ok_of_optSubOk {o : Option (List Char)} (h : optSubOk o = true) :
    ∃ s, optional_subscript_into_ast o = .ok s := by
  cases o with
  | none => exact ⟨⟨none⟩, rfl⟩
  | some s =>
    simp only [optSubOk, numeralOk] at h
    cases hd : decodeNumeral subscriptDigit s with
    | error e => rw [hd] at h; exact absurd h (by simp)
    | ok v =>
      exact ⟨⟨some v⟩, by simp [optional_subscript_into_ast, subscript_into_ast, hd]⟩

/-- A decodable predicate letter lowers successfully. -/
theorem letter_ok_of_numeralsOk {letter : CSTPredicateLetter}
    (h : letter.numeralsOk = true) :
    ∃ pl, predicate_letter_into_ast letter = .ok pl := by
  unfold CSTPredicateLetter.numeralsOk at h
  rw [Bool.and_eq_true] at h
  obtain ⟨h1, h2⟩ := h
  obtain ⟨s, hs⟩ := optsub_ok_of_optSubOk h1
  simp only [numeralOk] at h2
  cases hd : decodeNumeral superscriptDigit letter.sup with
  | error e => rw [hd] at h2; exact absurd h2 (by simp)
  | ok d =>
    exact ⟨⟨letter.alpha, s, ⟨d⟩⟩, by simp [predicate_letter_into_ast, hs, hd]⟩

/-- A decodable variable lowers successfully. -/
theorem var_ok_of_numeralsOk {v : CSTVariable} (h : v.numeralsOk = true) :
    ∃ v', variable_into_ast v = .ok v' := by
  unfold CSTVariable.numeralsOk at h
  obtain ⟨s, hs⟩ := optsub_ok_of_optSubOk h
  exact ⟨⟨v.alpha, s⟩, by unfold variable_into_ast; rw [hs]⟩

/-- A decodable singular term lowers successfully. -/
theorem sterm_ok_of_numeralsOk {t : CSTSingularTerm} (h : t.numeralsOk = true) :
    ∃ t', singular_term_into_ast t = .ok t' := by
  unfold CSTSingularTerm.numeralsOk at h
  obtain ⟨s, hs⟩ := optsub_ok_of_optSubOk h
  exact ⟨⟨t.alpha, s⟩, by unfold singular_term_into_ast; rw [hs]⟩

/-- A decodable term lowers successfully. -/
theorem term_ok_of_numeralsOk {t : CSTTerm} (h : t.numeralsOk = true) :
    ∃ t', term_into_ast t = .ok t' := by
  cases t with
  | singular s =>
    obtain ⟨s', hs⟩ := sterm_ok_of_numeralsOk h
    exact ⟨.singularTerm s', by simp [term_into_ast, hs]⟩
  | var v =>
    obtain ⟨v', hv⟩ := var_ok_of_numeralsOk h
    exact ⟨.var v', by simp [term_into_ast, hv]⟩

/-- A list of decodable terms lowers successfully. -/
theorem lowerTerms_ok_of_numeralsOk {ts : List CSTTerm}
    (h : ts.all CSTTerm.numeralsOk = true) :
    ∃ ts', lowerTerms ts = .ok ts' := by
  induction ts with
  | nil => exact ⟨[], rfl⟩
  | cons t rest ih =>
    rw [List.all_cons, Bool.and_eq_true] at h
    obtain ⟨t', ht⟩ := term_ok_of_numeralsOk h.1
    obtain ⟨ts', hts⟩ := ih h.2
    exact ⟨t' :: ts', by simp [lowerTerms, ht, hts]⟩

/-- A list of decodable singular terms lowers successfully. -/
theorem lowerSingularTerms_ok_of_numeralsOk {ts : List CSTSingularTerm}
    (h : ts.all CSTSingularTerm.numeralsOk = true) :
    ∃ ts', lowerSingularTerms ts = .ok ts' := by
  induction ts with
  | nil => exact ⟨[], rfl⟩
  | cons t rest ih =>
    rw [List.all_cons, Bool.and_eq_true] at h
    obtain ⟨t', ht⟩ := sterm_ok_of_numeralsOk h.1
    obtain ⟨ts', hts⟩ := ih h.2
    exact ⟨t' :: ts', by simp [lowerSingularTerms, ht, hts]⟩

/-- Successful term lowering is pointwise. -/
theorem lowerTerms_forall₂ {ts : List CSTTerm} {ts' : List Term}
    (h : lowerTerms ts = .ok ts') :
    List.Forall₂ (fun ct t => term_into_ast ct = .ok t) ts ts' := by
  induction ts generalizing ts' with
  | nil => cases h; exact .nil
  | cons t rest ih =>
    unfold lowerTerms at h
    cases ht : term_into_ast t <;> rw [ht] at h
    · exact absurd h (by simp)
    · cases hr : lowerTerms rest <;> rw [hr] at h
      · exact absurd h (by simp)
      · cases h
        exact .cons ht (ih hr)

/-- Lowered term lists have the same length. -/
theorem lowerTerms_length {ts : List CSTTerm} {ts' : List Term}
    (h : lowerTerms ts = .ok ts') : ts'.length = ts.length :=
  ((lowerTerms_forall₂ h).length_eq).symm

/-- Lowered singular-term lists have the same length. -/
theorem lowerSingularTerms_length {ts : List CSTSingularTerm} {ts' : List SingularTerm}
    (h : lowerSingularTerms ts = .ok ts') : ts'.length = ts.length := by
  induction ts generalizing ts' with
  | nil => cases h; rfl
  | cons t rest ih =>
    unfold lowerSingularTerms at h
    cases ht : singular_term_into_ast t <;> rw [ht] at h
    · exact absurd h (by simp)
    · cases hr : lowerSingularTerms rest <;> rw [hr] at h
      · exact absurd h (by simp)
      · cases h
        simp [ih hr]

/-- An error of the raw codepoint-table decoding phase is always a panic. -/
theorem decodeDigitChars_err {tbl : Char → Option Nat} {s : List Char} {e : Outcome}
    (h : decodeDigitChars tbl s = .error e) : e = .panicBadDigit := by
  induction s with
  | nil => simp [decodeDigitChars] at h
  | cons c rest ih =>
    simp only [decodeDigitChars] at h
    split at h
    · cases h; rfl
    · split at h
      · cases h
        exact ih (by assumption)
      · cases h

/-- An error of numeral decoding is always a panic. -/
theorem decodeNumeral_err {tbl : Char → Option Nat} {s : List Char} {e : Outcome}
    (h : decodeNumeral tbl s = .error e) :
    e = .panicBadDigit ∨ e = .panicNumeral := by
  simp only [decodeNumeral] at h
  split at h
  · cases h
    rename_i hd
    exact Or.inl (decodeDigitChars_err hd)
  · simp only [parseU64] at h
    split at h
    · cases h; exact Or.inr rfl
    · split at h
      · cases h
      · cases h; exact Or.inr rfl

/-- An error of optional-subscript lowering is always a panic. -/
theorem optsub_err {o : Option (List Char)} {e : Outcome}
    (h : optional_subscript_into_ast o = .error e) :
    e = .panicBadDigit ∨ e = .panicNumeral := by
  cases o with
  | none => simp [optional_subscript_into_ast] at h
  | some s =>
    simp only [optional_subscript_into_ast, subscript_into_ast] at h
    split at h
    · cases h
      rename_i hd
      exact decodeNumeral_err hd
    · cases h

/-- An error of predicate-letter lowering is always a panic. -/
theorem letter_err {letter : CSTPredicateLetter} {e : Outcome}
    (h : predicate_letter_into_ast letter = .error e) :
    e = .panicBadDigit ∨ e = .panicNumeral := by
  simp only [predicate_letter_into_ast] at h
  split at h
  · cases h
    rename_i hs
    exact optsub_err hs
  · split at h
    · cases h
      rename_i hd
      exact decodeNumeral_err hd
    · cases h

/-- An error of variable lowering is always a panic. -/
theorem var_err {v : CSTVariable} {e : Outcome}
    (h : variable_into_ast v = .error e) :
    e = .panicBadDigit ∨ e = .panicNumeral := by
  simp only [variable_into_ast] at h
  split at h
  · cases h
    rename_i hs
    exact optsub_err hs
  · cases h

/-- An error of singular-term lowering is always a panic. -/
theorem sterm_err {t : CSTSingularTerm} {e : Outcome}
    (h : singular_term_into_ast t = .error e) :
    e = .panicBadDigit ∨ e = .panicNumeral := by
  simp only [singular_term_into_ast] at h
  split at h
  · cases h
    rename_i hs
    exact optsub_err hs
  · cases h

/-- An error of term lowering is always a panic. -/
theorem term_err {t : CSTTerm} {e : Outcome}
    (h : term_into_ast t = .error e) :
    e = .panicBadDigit ∨ e = .panicNumeral := by
  cases t with
  | singular s =>
    simp only [term_into_ast] at h
    split at h
    · cases h
      rename_i hs
      exact sterm_err hs
    · cases h
  | var v =>
    simp only [term_into_ast] at h
    split at h
    · cases h
      rename_i hv
      exact var_err hv
    · cases h

/-- An error of term-list lowering is always a panic. -/
theorem lowerTerms_err {ts : List CSTTerm} {e : Outcome}
    (h : lowerTerms ts = .error e) :
    e = .panicBadDigit ∨ e = .panicNumeral := by
  induction ts with
  | nil => simp [lowerTerms] at h
  | cons t rest ih =>
    simp only [lowerTerms] at h
    split at h
    · cases h
      rename_i ht
      exact term_err ht
    · split at h
      · cases h
        exact ih (by assumption)
      · cases h

/-- An error of singular-term-list lowering is always a panic. -/
theorem lowerSingularTerms_err {ts : List CSTSingularTerm} {e : Outcome}
    (h : lowerSingularTerms ts = .error e) :
    e = .panicBadDigit ∨ e = .panicNumeral := by
  induction ts with
  | nil => simp [lowerSingularTerms] at h
  | cons t rest ih =>
    simp only [lowerSingularTerms] at h
    split at h
    · cases h
      rename_i ht
      exact sterm_err ht
    · split at h
      · cases h
        exact ih (by assumption)
      · cases h

/-- The concrete in-scope test agrees with the lowered `stack.contains` test
when the stacks are related by decoding. -/
theorem cstInScope_eq {cstStack : List CSTVariable} {stack : List Variable}
    (hrel : List.Forall₂ (fun cv av => variable_into_ast cv = .ok av) cstStack stack)
    {v : CSTVariable} {v' : Variable} (hv : variable_into_ast v = .ok v') :
    cstInScope cstStack v = stack.any fun w => decide (w = v') := by
  unfold cstInScope
  rw [show cstVarDecode? v = some v' by unfold cstVarDecode?; rw [hv]]
  induction hrel with
  | nil => rfl
  | @cons u w us ws hu _ ih =>
    simp only [List.any_cons, ih]
    congr 1
    rw [show cstVarDecode? u = some w by unfold cstVarDecode?; rw [hu]]
    simp

/-- The scope check of `simple_predicate_into_ast` agrees with the concrete
out-of-scope test when stacks and terms are related by decoding. -/
theorem termsInScope_eq {cstStack : List CSTVariable} {stack : List Variable}
    (hrel : List.Forall₂ (fun cv av => variable_into_ast cv = .ok av) cstStack stack)
    {ts : List CSTTerm} {ts' : List Term}
    (hts : List.Forall₂ (fun ct t => term_into_ast ct = .ok t) ts ts') :
    termsInScope stack ts' = ! ts.any (CSTTerm.outOfScope cstStack) := by
  induction hts with
  | nil => rfl
  | @cons ct t cts tss ht _ ih =>
    simp only [termsInScope] at ih
    simp only [termsInScope, List.all_cons, List.any_cons, Bool.not_or, ih]
    congr 1
    cases ct with
    | singular s =>
      simp only [term_into_ast] at ht
      split at ht
      · cases ht
      · cases ht; rfl
    | var v =>
      simp only [term_into_ast] at ht
      split at ht
      · cases ht
      · cases ht
        simp only [CSTTerm.outOfScope, Bool.not_not]
        exact (cstInScope_eq hrel (by assumption)).symm

/-- Full characterisation of one `simple_predicate` site: what a success
guarantees, which violation each semantic error signals, and that with
decodable numerals only the two semantic errors can occur. -/
theorem simple_site {cstStack : List CSTVariable} {stack : List Variable}
    (hrel : List.Forall₂ (fun cv av => variable_into_ast cv = .ok av) cstStack stack)
    (letter : CSTPredicateLetter) (terms : List CSTTerm) :
    (∀ q, simple_predicate_into_ast stack letter terms = .ok q →
       q.degreeOk = true ∧ q.varsBound stack = true ∧
       degreeVioAt letter terms.length = false ∧
       terms.any (CSTTerm.outOfScope cstStack) = false ∧
       (terms.isEmpty = false → q.degreesPos = true))
    ∧ (simple_predicate_into_ast stack letter terms = .error .degreeMismatch →
        degreeVioAt letter terms.length = true)
    ∧ (simple_predicate_into_ast stack letter terms = .error .freeVariable →
        terms.any (CSTTerm.outOfScope cstStack) = true)
    ∧ (letter.numeralsOk = true → terms.all CSTTerm.numeralsOk = true →
        ∀ e, simple_predicate_into_ast stack letter terms = .error e →
          e = .degreeMismatch ∨ e = .freeVariable) := by
  cases hL : predicate_letter_into_ast letter with
  | error e0 =>
    simp only [simple_predicate_into_ast, hL]
    refine ⟨?_, ?_, ?_, ?_⟩
    · intro q hq
      cases hq
    · intro hdm
      cases hdm
      rcases letter_err hL with h | h <;> cases h
    · intro hfv
      cases hfv
      rcases letter_err hL with h | h <;> cases h
    · intro hnl _ e he
      obtain ⟨pl, hok⟩ := letter_ok_of_numeralsOk hnl
      rw [hok] at hL
      cases hL
  | ok pl =>
    cases hT : lowerTerms terms with
    | error e0 =>
      simp only [simple_predicate_into_ast, hL, hT]
      refine ⟨?_, ?_, ?_, ?_⟩
      · intro q hq
        cases hq
      · intro hdm
        cases hdm
        rcases lowerTerms_err hT with h | h <;> cases h
      · intro hfv
        cases hfv
        rcases lowerTerms_err hT with h | h <;> cases h
      · intro _ hnt e he
        obtain ⟨ts', hok⟩ := lowerTerms_ok_of_numeralsOk hnt
        rw [hok] at hT
        cases hT
    | ok ts' =>
      have hlen : ts'.length = terms.length := lowerTerms_length hT
      have hvio : degreeVioAt letter terms.length = (pl.degree.val != ts'.length) := by
        unfold degreeVioAt
        rw [degreeVal?_of_ok hL, hlen]
      have hscope : termsInScope stack ts' = ! terms.any (CSTTerm.outOfScope cstStack) :=
        termsInScope_eq hrel (lowerTerms_forall₂ hT)
      simp only [simple_predicate_into_ast, hL, hT]
      by_cases hd : pl.degree.val = ts'.length
      · rw [if_neg (by simp [hd])]
        by_cases hs : termsInScope stack ts' = true
        · rw [if_neg (by simp [hs])]
          refine ⟨?_, ?_, ?_, ?_⟩
          · intro q hq
            cases hq
            refine ⟨?_, hs, ?_, ?_, fun hne => ?_⟩
            · simp [Predicate.degreeOk, hd]
            · simp [hvio, hd]
            · rw [hscope] at hs
              simpa using hs
            · simp only [Predicate.degreesPos, decide_eq_true_eq, hd, hlen]
              cases terms with
              | nil => simp at hne
              | cons a l => simp
          · intro hdm
            cases hdm
          · intro hfv
            cases hfv
          · intro _ _ e he
            cases he
        · rw [if_pos (by simpa using hs)]
          refine ⟨?_, ?_, ?_, ?_⟩
          · intro q hq
            cases hq
          · intro hdm
            cases hdm
          · intro hfv
            have hs' : termsInScope stack ts' = false := by simpa using hs
            rw [hscope] at hs'
            simpa using hs'
          · intro _ _ e he
            cases he
            exact Or.inr rfl
      · rw [if_pos hd]
        refine ⟨?_, ?_, ?_, ?_⟩
        · intro q hq
          cases hq
        · intro _
          rw [hvio]
          simpa using hd
        · intro hfv
          cases hfv
        · intro _ _ e he
          cases he
          exact Or.inl rfl

/-- Master characterisation of predicate lowering: what a success
guarantees, which violation each semantic error signals, and that with
decodable numerals only the two semantic errors occur.  The scope stack is
fixed throughout, mirroring the code: the recursion never pushes. -/
theorem predicate_master {cstStack : List CSTVariable} {stack : List Variable}
    (hrel : List.Forall₂ (fun cv av => variable_into_ast cv = .ok av) cstStack stack)
    (p : CSTPredicate) :
    (∀ q, predicate_into_ast stack p = .ok q →
       q.degreeOk = true ∧ q.varsBound stack = true ∧
       p.hasDegreeVio = false ∧ p.hasScopeVio cstStack = false ∧
       (p.termsNonempty = true → q.degreesPos = true))
    ∧ (predicate_into_ast stack p = .error .degreeMismatch → p.hasDegreeVio = true)
    ∧ (predicate_into_ast stack p = .error .freeVariable → p.hasScopeVio cstStack = true)
    ∧ (p.numeralsOk = true → ∀ e, predicate_into_ast stack p = .error e →
         e = .degreeMismatch ∨ e = .freeVariable) := by
  induction p with
  | simple letter terms =>
    obtain ⟨hok, hdm, hfv, hcl⟩ := simple_site hrel letter terms
    refine ⟨?_, ?_, ?_, ?_⟩
    · intro q hq
      simp only [predicate_into_ast] at hq
      obtain ⟨d, v, dv, sv, hp⟩ := hok q hq
      refine ⟨d, v, dv, sv, fun hne => ?_⟩
      simp only [CSTPredicate.termsNonempty, Bool.not_eq_eq_eq_not, Bool.not_true] at hne
      exact hp hne
    · intro h
      simp only [predicate_into_ast] at h
      simpa [CSTPredicate.hasDegreeVio] using hdm h
    · intro h
      simp only [predicate_into_ast] at h
      simpa [CSTPredicate.hasScopeVio] using hfv h
    · intro hnum e he
      simp only [CSTPredicate.numeralsOk, Bool.and_eq_true] at hnum
      simp only [predicate_into_ast] at he
      exact hcl hnum.1 hnum.2 e he
  | conjunctive l r ihl ihr =>
    obtain ⟨okl, dml, fvl, cll⟩ := ihl
    obtain ⟨okr, dmr, fvr, clr⟩ := ihr
    refine ⟨?_, ?_, ?_, ?_⟩
    · intro q hq
      simp only [predicate_into_ast] at hq
      cases hl : predicate_into_ast stack l with
      | error e1 => rw [hl] at hq; cases hq
      | ok lp =>
        rw [hl] at hq
        cases hr : predicate_into_ast stack r with
        | error e1 => rw [hr] at hq; cases hq
        | ok rp =>
          rw [hr] at hq
          cases hq
          obtain ⟨d1, v1, dv1, sv1, p1⟩ := okl lp hl
          obtain ⟨d2, v2, dv2, sv2, p2⟩ := okr rp hr
          refine ⟨?_, ?_, ?_, ?_, ?_⟩
          · simp [Predicate.degreeOk, d1, d2]
          · simp [Predicate.varsBound, v1, v2]
          · simp [CSTPredicate.hasDegreeVio, dv1, dv2]
          · simp [CSTPredicate.hasScopeVio, sv1, sv2]
          · intro hne
            simp only [CSTPredicate.termsNonempty, Bool.and_eq_true] at hne
            simp [Predicate.degreesPos, p1 hne.1, p2 hne.2]
    · intro h
      simp only [predicate_into_ast] at h
      cases hl : predicate_into_ast stack l with
      | error e1 =>
        rw [hl] at h
        cases h
        simp [CSTPredicate.hasDegreeVio, dml hl]
      | ok lp =>
        rw [hl] at h
        cases hr : predicate_into_ast stack r with
        | error e1 =>
          rw [hr] at h
          cases h
          simp [CSTPredicate.hasDegreeVio, dmr hr]
        | ok rp =>
          rw [hr] at h
          cases h
    · intro h
      simp only [predicate_into_ast] at h
      cases hl : predicate_into_ast stack l with
      | error e1 =>
        rw [hl] at h
        cases h
        simp [CSTPredicate.hasScopeVio, fvl hl]
      | ok lp =>
        rw [hl] at h
        cases hr : predicate_into_ast stack r with
        | error e1 =>
          rw [hr] at h
          cases h
          simp [CSTPredicate.hasScopeVio, fvr hr]
        | ok rp =>
          rw [hr] at h
          cases h
    · intro hnum e he
      simp only [CSTPredicate.numeralsOk, Bool.and_eq_true] at hnum
      simp only [predicate_into_ast] at he
      cases hl : predicate_into_ast stack l with
      | error e1 =>
        rw [hl] at he
        cases he
        exact cll hnum.1 e hl
      | ok lp =>
        rw [hl] at he
        cases hr : predicate_into_ast stack r with
        | error e1 =>
          rw [hr] at he
          cases he
          exact clr hnum.2 e hr
        | ok rp =>
          rw [hr] at he
          cases he
  | negative p ih =>
    obtain ⟨okp, dmp, fvp, clp⟩ := ih
    refine ⟨?_, ?_, ?_, ?_⟩
    · intro q hq
      simp only [predicate_into_ast] at hq
      cases hp : predicate_into_ast stack p with
      | error e1 => rw [hp] at hq; cases hq
      | ok pp =>
        rw [hp] at hq
        cases hq
        obtain ⟨d1, v1, dv1, sv1, p1⟩ := okp pp hp
        refine ⟨?_, ?_, ?_, ?_, ?_⟩
        · simpa [Predicate.degreeOk] using d1
        · simpa [Predicate.varsBound] using v1
        · simpa [CSTPredicate.hasDegreeVio] using dv1
        · simpa [CSTPredicate.hasScopeVio] using sv1
        · intro hne
          simp only [CSTPredicate.termsNonempty] at hne
          simpa [Predicate.degreesPos] using p1 hne
    · intro h
      simp only [predicate_into_ast] at h
      cases hp : predicate_into_ast stack p with
      | error e1 =>
        rw [hp] at h
        cases h
        simpa [CSTPredicate.hasDegreeVio] using dmp hp
      | ok pp =>
        rw [hp] at h
        cases h
    · intro h
      simp only [predicate_into_ast] at h
      cases hp : predicate_into_ast stack p with
      | error e1 =>
        rw [hp] at h
        cases h
        simpa [CSTPredicate.hasScopeVio] using fvp hp
      | ok pp =>
        rw [hp] at h
        cases h
    · intro hnum e he
      simp only [CSTPredicate.numeralsOk] at hnum
      simp only [predicate_into_ast] at he
      cases hp : predicate_into_ast stack p with
      | error e1 =>
        rw [hp] at he
        cases he
        exact clp hnum e hp
      | ok pp =>
        rw [hp] at he
        cases he
  | disjunctive l r ihl ihr =>
    obtain ⟨okl, dml, fvl, cll⟩ := ihl
    obtain ⟨okr, dmr, fvr, clr⟩ := ihr
    refine ⟨?_, ?_, ?_, ?_⟩
    · intro q hq
      simp only [predicate_into_ast] at hq
      cases hl : predicate_into_ast stack l with
      | error e1 => rw [hl] at hq; cases hq
      | ok lp =>
        rw [hl] at hq
        cases hr : predicate_into_ast stack r with
        | error e1 => rw [hr] at hq; cases hq
        | ok rp =>
          rw [hr] at hq
          cases hq
          obtain ⟨d1, v1, dv1, sv1, p1⟩ := okl lp hl
          obtain ⟨d2, v2, dv2, sv2, p2⟩ := okr rp hr
          refine ⟨?_, ?_, ?_, ?_, ?_⟩
          · simp [Predicate.degreeOk, d1, d2]
          · simp [Predicate.varsBound, v1, v2]
          · simp [CSTPredicate.hasDegreeVio, dv1, dv2]
          · simp [CSTPredicate.hasScopeVio, sv1, sv2]
          · intro hne
            simp only [CSTPredicate.termsNonempty, Bool.and_eq_true] at hne
            simp [Predicate.degreesPos, p1 hne.1, p2 hne.2]
    · intro h
      simp only [predicate_into_ast] at h
      cases hl : predicate_into_ast stack l with
      | error e1 =>
        rw [hl] at h
        cases h
        simp [CSTPredicate.hasDegreeVio, dml hl]
      | ok lp =>
        rw [hl] at h
        cases hr : predicate_into_ast stack r with
        | error e1 =>
          rw [hr] at h
          cases h
          simp [CSTPredicate.hasDegreeVio, dmr hr]
        | ok rp =>
          rw [hr] at h
          cases h
    · intro h
      simp only [predicate_into_ast] at h
      cases hl : predicate_into_ast stack l with
      | error e1 =>
        rw [hl] at h
        cases h
        simp [CSTPredicate.hasScopeVio, fvl hl]
      | ok lp =>
        rw [hl] at h
        cases hr : predicate_into_ast stack r with
        | error e1 =>
          rw [hr] at h
          cases h
          simp [CSTPredicate.hasScopeVio, fvr hr]
        | ok rp =>
          rw [hr] at h
          cases h
    · intro hnum e he
      simp only [CSTPredicate.numeralsOk, Bool.and_eq_true] at hnum
      simp only [predicate_into_ast] at he
      cases hl : predicate_into_ast stack l with
      | error e1 =>
        rw [hl] at he
        cases he
        exact cll hnum.1 e hl
      | ok lp =>
        rw [hl] at he
        cases hr : predicate_into_ast stack r with
        | error e1 =>
          rw [hr] at he
          cases he
          exact clr hnum.2 e hr
        | ok rp =>
          rw [hr] at he
          cases he
  | conditional l r ihl ihr =>
    obtain ⟨okl, dml, fvl, cll⟩ := ihl
    obtain ⟨okr, dmr, fvr, clr⟩ := ihr
    refine ⟨?_, ?_, ?_, ?_⟩
    · intro q hq
      simp only [predicate_into_ast] at hq
      cases hl : predicate_into_ast stack l with
      | error e1 => rw [hl] at hq; cases hq
      | ok lp =>
        rw [hl] at hq
        cases hr : predicate_into_ast stack r with
        | error e1 => rw [hr] at hq; cases hq
        | ok rp =>
          rw [hr] at hq
          cases hq
          obtain ⟨d1, v1, dv1, sv1, p1⟩ := okl lp hl
          obtain ⟨d2, v2, dv2, sv2, p2⟩ := okr rp hr
          refine ⟨?_, ?_, ?_, ?_, ?_⟩
          · simp [Predicate.degreeOk, d1, d2]
          · simp [Predicate.varsBound, v1, v2]
          · simp [CSTPredicate.hasDegreeVio, dv1, dv2]
          · simp [CSTPredicate.hasScopeVio, sv1, sv2]
          · intro hne
            simp only [CSTPredicate.termsNonempty, Bool.and_eq_true] at hne
            simp [Predicate.degreesPos, p1 hne.1, p2 hne.2]
    · intro h
      simp only [predicate_into_ast] at h
      cases hl : predicate_into_ast stack l with
      | error e1 =>
        rw [hl] at h
        cases h
        simp [CSTPredicate.hasDegreeVio, dml hl]
      | ok lp =>
        rw [hl] at h
        cases hr : predicate_into_ast stack r with
        | error e1 =>
          rw [hr] at h
          cases h
          simp [CSTPredicate.hasDegreeVio, dmr hr]
        | ok rp =>
          rw [hr] at h
          cases h
    · intro h
      simp only [predicate_into_ast] at h
      cases hl : predicate_into_ast stack l with
      | error e1 =>
        rw [hl] at h
        cases h
        simp [CSTPredicate.hasScopeVio, fvl hl]
      | ok lp =>
        rw [hl] at h
        cases hr : predicate_into_ast stack r with
        | error e1 =>
          rw [hr] at h
          cases h
          simp [CSTPredicate.hasScopeVio, fvr hr]
        | ok rp =>
          rw [hr] at h
          cases h
    · intro hnum e he
      simp only [CSTPredicate.numeralsOk, Bool.and_eq_true] at hnum
      simp only [predicate_into_ast] at he
      cases hl : predicate_into_ast stack l with
      | error e1 =>
        rw [hl] at he
        cases he
        exact cll hnum.1 e hl
      | ok lp =>
        rw [hl] at he
        cases hr : predicate_into_ast stack r with
        | error e1 =>
          rw [hr] at he
          cases he
          exact clr hnum.2 e hr
        | ok rp =>
          rw [hr] at he
          cases he


/-- Master characterisation of statement lowering. -/
theorem statement_master (s : CSTStatement) :
    (∀ a, statement_into_ast s = .ok a →
       a.degreeOk = true ∧ a.scopeOk = true ∧
       s.hasDegreeVio = false ∧ s.hasScopeVio = false ∧
       (s.termsNonempty = true → a.degreesPos = true))
    ∧ (statement_into_ast s = .error .degreeMismatch → s.hasDegreeVio = true)
    ∧ (statement_into_ast s = .error .freeVariable → s.hasScopeVio = true)
    ∧ (s.numeralsOk = true → ∀ e, statement_into_ast s = .error e →
         e = .degreeMismatch ∨ e = .freeVariable) := by
  induction s with
  | simpleLetter alpha sub =>
    refine ⟨?_, ?_, ?_, ?_⟩
    · intro a ha
      simp only [statement_into_ast] at ha
      cases hs : optional_subscript_into_ast sub with
      | error e1 => rw [hs] at ha; cases ha
      | ok s1 =>
        rw [hs] at ha
        cases ha
        exact ⟨rfl, rfl, rfl, rfl, fun _ => rfl⟩
    · intro h
      simp only [statement_into_ast] at h
      cases hs : optional_subscript_into_ast sub with
      | error e1 =>
        rw [hs] at h
        cases h
        rcases optsub_err hs with h1 | h1 <;> cases h1
      | ok s1 =>
        rw [hs] at h
        cases h
    · intro h
      simp only [statement_into_ast] at h
      cases hs : optional_subscript_into_ast sub with
      | error e1 =>
        rw [hs] at h
        cases h
        rcases optsub_err hs with h1 | h1 <;> cases h1
      | ok s1 =>
        rw [hs] at h
        cases h
    · intro hnum e he
      simp only [CSTStatement.numeralsOk] at hnum
      obtain ⟨s1, hok⟩ := optsub_ok_of_optSubOk hnum
      simp only [statement_into_ast, hok] at he
      cases he
  | singular letter terms =>
    refine ⟨?_, ?_, ?_, ?_⟩
    · intro a ha
      simp only [statement_into_ast, singular_statement_into_ast] at ha
      cases hL : predicate_letter_into_ast letter with
      | error e1 => rw [hL] at ha; cases ha
      | ok pl =>
        simp only [hL] at ha
        cases hT : lowerSingularTerms terms with
        | error e1 => rw [hT] at ha; cases ha
        | ok ts1 =>
          simp only [hT] at ha
          by_cases hd : pl.degree.val = ts1.length
          · rw [if_neg (by simp [hd])] at ha
            cases ha
            have hlen := lowerSingularTerms_length hT
            refine ⟨?_, rfl, ?_, rfl, fun hne => ?_⟩
            · simp [Statement.degreeOk, hd]
            · simp [CSTStatement.hasDegreeVio, degreeVioAt, degreeVal?_of_ok hL, hlen, hd]
            · simp only [CSTStatement.termsNonempty, Bool.not_eq_eq_eq_not, Bool.not_true] at hne
              simp only [Statement.degreesPos, decide_eq_true_eq, hd, hlen]
              cases terms with
              | nil => simp at hne
              | cons x xs => simp
          · rw [if_pos hd] at ha
            cases ha
    · intro h
      simp only [statement_into_ast, singular_statement_into_ast] at h
      cases hL : predicate_letter_into_ast letter with
      | error e1 =>
        rw [hL] at h
        cases h
        rcases letter_err hL with h1 | h1 <;> cases h1
      | ok pl =>
        simp only [hL] at h
        cases hT : lowerSingularTerms terms with
        | error e1 =>
          rw [hT] at h
          cases h
          rcases lowerSingularTerms_err hT with h1 | h1 <;> cases h1
        | ok ts1 =>
          simp only [hT] at h
          by_cases hd : pl.degree.val = ts1.length
          · rw [if_neg (by simp [hd])] at h
            cases h
          · rw [if_pos hd] at h
            have hlen := lowerSingularTerms_length hT
            simp only [CSTStatement.hasDegreeVio, degreeVioAt, degreeVal?_of_ok hL, hlen]
            simpa [hlen] using hd
    · intro h
      simp only [statement_into_ast, singular_statement_into_ast] at h
      cases hL : predicate_letter_into_ast letter with
      | error e1 =>
        rw [hL] at h
        cases h
        rcases letter_err hL with h1 | h1 <;> cases h1
      | ok pl =>
        simp only [hL] at h
        cases hT : lowerSingularTerms terms with
        | error e1 =>
          rw [hT] at h
          cases h
          rcases lowerSingularTerms_err hT with h1 | h1 <;> cases h1
        | ok ts1 =>
          simp only [hT] at h
          by_cases hd : pl.degree.val = ts1.length
          · rw [if_neg (by simp [hd])] at h
            cases h
          · rw [if_pos hd] at h
            cases h
    · intro hnum e he
      simp only [CSTStatement.numeralsOk, Bool.and_eq_true] at hnum
      simp only [statement_into_ast, singular_statement_into_ast] at he
      obtain ⟨pl, hLok⟩ := letter_ok_of_numeralsOk hnum.1
      obtain ⟨ts1, hTok⟩ := lowerSingularTerms_ok_of_numeralsOk hnum.2
      simp only [hLok, hTok] at he
      by_cases hd : pl.degree.val = ts1.length
      · rw [if_neg (by simp [hd])] at he
        cases he
      · rw [if_pos hd] at he
        cases he
        exact Or.inl rfl
  | conjunction l r ihl ihr =>
    obtain ⟨okl, dml, fvl, cll⟩ := ihl
    obtain ⟨okr, dmr, fvr, clr⟩ := ihr
    refine ⟨?_, ?_, ?_, ?_⟩
    · intro a ha
      simp only [statement_into_ast] at ha
      cases hl : statement_into_ast l with
      | error e1 => rw [hl] at ha; cases ha
      | ok ls =>
        rw [hl] at ha
        cases hr : statement_into_ast r with
        | error e1 => rw [hr] at ha; cases ha
        | ok rs =>
          rw [hr] at ha
          cases ha
          obtain ⟨d1, s1, dv1, sv1, p1⟩ := okl ls hl
          obtain ⟨d2, s2, dv2, sv2, p2⟩ := okr rs hr
          refine ⟨?_, ?_, ?_, ?_, ?_⟩
          · simp [Statement.degreeOk, d1, d2]
          · simp [Statement.scopeOk, s1, s2]
          · simp [CSTStatement.hasDegreeVio, dv1, dv2]
          · simp [CSTStatement.hasScopeVio, sv1, sv2]
          · intro hne
            simp only [CSTStatement.termsNonempty, Bool.and_eq_true] at hne
            simp [Statement.degreesPos, p1 hne.1, p2 hne.2]
    · intro h
      simp only [statement_into_ast] at h
      cases hl : statement_into_ast l with
      | error e1 =>
        rw [hl] at h
        cases h
        simp [CSTStatement.hasDegreeVio, dml hl]
      | ok ls =>
        rw [hl] at h
        cases hr : statement_into_ast r with
        | error e1 =>
          rw [hr] at h
          cases h
          simp [CSTStatement.hasDegreeVio, dmr hr]
        | ok rs =>
          rw [hr] at h
          cases h
    · intro h
      simp only [statement_into_ast] at h
      cases hl : statement_into_ast l with
      | error e1 =>
        rw [hl] at h
        cases h
        simp [CSTStatement.hasScopeVio, fvl hl]
      | ok ls =>
        rw [hl] at h
        cases hr : statement_into_ast r with
        | error e1 =>
          rw [hr] at h
          cases h
          simp [CSTStatement.hasScopeVio, fvr hr]
        | ok rs =>
          rw [hr] at h
          cases h
    · intro hnum e he
      simp only [CSTStatement.numeralsOk, Bool.and_eq_true] at hnum
      simp only [statement_into_ast] at he
      cases hl : statement_into_ast l with
      | error e1 =>
        rw [hl] at he
        cases he
        exact cll hnum.1 e hl
      | ok ls =>
        rw [hl] at he
        cases hr : statement_into_ast r with
        | error e1 =>
          rw [hr] at he
          cases he
          exact clr hnum.2 e hr
        | ok rs =>
          rw [hr] at he
          cases he
  | negation s ih =>
    obtain ⟨oks, dms, fvs, cls⟩ := ih
    refine ⟨?_, ?_, ?_, ?_⟩
    · intro a ha
      simp only [statement_into_ast] at ha
      cases hs : statement_into_ast s with
      | error e1 => rw [hs] at ha; cases ha
      | ok s1 =>
        rw [hs] at ha
        cases ha
        obtain ⟨d1, b1, dv1, sv1, p1⟩ := oks s1 hs
        refine ⟨?_, ?_, ?_, ?_, ?_⟩
        · simpa [Statement.degreeOk] using d1
        · simpa [Statement.scopeOk] using b1
        · simpa [CSTStatement.hasDegreeVio] using dv1
        · simpa [CSTStatement.hasScopeVio] using sv1
        · intro hne
          simp only [CSTStatement.termsNonempty] at hne
          simpa [Statement.degreesPos] using p1 hne
    · intro h
      simp only [statement_into_ast] at h
      cases hs : statement_into_ast s with
      | error e1 =>
        rw [hs] at h
        cases h
        simpa [CSTStatement.hasDegreeVio] using dms hs
      | ok s1 =>
        rw [hs] at h
        cases h
    · intro h
      simp only [statement_into_ast] at h
      cases hs : statement_into_ast s with
      | error e1 =>
        rw [hs] at h
        cases h
        simpa [CSTStatement.hasScopeVio] using fvs hs
      | ok s1 =>
        rw [hs] at h
        cases h
    · intro hnum e he
      simp only [CSTStatement.numeralsOk] at hnum
      simp only [statement_into_ast] at he
      cases hs : statement_into_ast s with
      | error e1 =>
        rw [hs] at he
        cases he
        exact cls hnum e hs
      | ok s1 =>
        rw [hs] at he
        cases he
  | disjunction l r ihl ihr =>
    obtain ⟨okl, dml, fvl, cll⟩ := ihl
    obtain ⟨okr, dmr, fvr, clr⟩ := ihr
    refine ⟨?_, ?_, ?_, ?_⟩
    · intro a ha
      simp only [statement_into_ast] at ha
      cases hl : statement_into_ast l with
      | error e1 => rw [hl] at ha; cases ha
      | ok ls =>
        rw [hl] at ha
        cases hr : statement_into_ast r with
        | error e1 => rw [hr] at ha; cases ha
        | ok rs =>
          rw [hr] at ha
          cases ha
          obtain ⟨d1, s1, dv1, sv1, p1⟩ := okl ls hl
          obtain ⟨d2, s2, dv2, sv2, p2⟩ := okr rs hr
          refine ⟨?_, ?_, ?_, ?_, ?_⟩
          · simp [Statement.degreeOk, d1, d2]
          · simp [Statement.scopeOk, s1, s2]
          · simp [CSTStatement.hasDegreeVio, dv1, dv2]
          · simp [CSTStatement.hasScopeVio, sv1, sv2]
          · intro hne
            simp only [CSTStatement.termsNonempty, Bool.and_eq_true] at hne
            simp [Statement.degreesPos, p1 hne.1, p2 hne.2]
    · intro h
      simp only [statement_into_ast] at h
      cases hl : statement_into_ast l with
      | error e1 =>
        rw [hl] at h
        cases h
        simp [CSTStatement.hasDegreeVio, dml hl]
      | ok ls =>
        rw [hl] at h
        cases hr : statement_into_ast r with
        | error e1 =>
          rw [hr] at h
          cases h
          simp [CSTStatement.hasDegreeVio, dmr hr]
        | ok rs =>
          rw [hr] at h
          cases h
    · intro h
      simp only [statement_into_ast] at h
      cases hl : statement_into_ast l with
      | error e1 =>
        rw [hl] at h
        cases h
        simp [CSTStatement.hasScopeVio, fvl hl]
      | ok ls =>
        rw [hl] at h
        cases hr : statement_into_ast r with
        | error e1 =>
          rw [hr] at h
          cases h
          simp [CSTStatement.hasScopeVio, fvr hr]
        | ok rs =>
          rw [hr] at h
          cases h
    · intro hnum e he
      simp only [CSTStatement.numeralsOk, Bool.and_eq_true] at hnum
      simp only [statement_into_ast] at he
      cases hl : statement_into_ast l with
      | error e1 =>
        rw [hl] at he
        cases he
        exact cll hnum.1 e hl
      | ok ls =>
        rw [hl] at he
        cases hr : statement_into_ast r with
        | error e1 =>
          rw [hr] at he
          cases he
          exact clr hnum.2 e hr
        | ok rs =>
          rw [hr] at he
          cases he
  | conditional l r ihl ihr =>
    obtain ⟨okl, dml, fvl, cll⟩ := ihl
    obtain ⟨okr, dmr, fvr, clr⟩ := ihr
    refine ⟨?_, ?_, ?_, ?_⟩
    · intro a ha
      simp only [statement_into_ast] at ha
      cases hl : statement_into_ast l with
      | error e1 => rw [hl] at ha; cases ha
      | ok ls =>
        rw [hl] at ha
        cases hr : statement_into_ast r with
        | error e1 => rw [hr] at ha; cases ha
        | ok rs =>
          rw [hr] at ha
          cases ha
          obtain ⟨d1, s1, dv1, sv1, p1⟩ := okl ls hl
          obtain ⟨d2, s2, dv2, sv2, p2⟩ := okr rs hr
          refine ⟨?_, ?_, ?_, ?_, ?_⟩
          · simp [Statement.degreeOk, d1, d2]
          · simp [Statement.scopeOk, s1, s2]
          · simp [CSTStatement.hasDegreeVio, dv1, dv2]
          · simp [CSTStatement.hasScopeVio, sv1, sv2]
          · intro hne
            simp only [CSTStatement.termsNonempty, Bool.and_eq_true] at hne
            simp [Statement.degreesPos, p1 hne.1, p2 hne.2]
    · intro h
      simp only [statement_into_ast] at h
      cases hl : statement_into_ast l with
      | error e1 =>
        rw [hl] at h
        cases h
        simp [CSTStatement.hasDegreeVio, dml hl]
      | ok ls =>
        rw [hl] at h
        cases hr : statement_into_ast r with
        | error e1 =>
          rw [hr] at h
          cases h
          simp [CSTStatement.hasDegreeVio, dmr hr]
        | ok rs =>
          rw [hr] at h
          cases h
    · intro h
      simp only [statement_into_ast] at h
      cases hl : statement_into_ast l with
      | error e1 =>
        rw [hl] at h
        cases h
        simp [CSTStatement.hasScopeVio, fvl hl]
      | ok ls =>
        rw [hl] at h
        cases hr : statement_into_ast r with
        | error e1 =>
          rw [hr] at h
          cases h
          simp [CSTStatement.hasScopeVio, fvr hr]
        | ok rs =>
          rw [hr] at h
          cases h
    · intro hnum e he
      simp only [CSTStatement.numeralsOk, Bool.and_eq_true] at hnum
      simp only [statement_into_ast] at he
      cases hl : statement_into_ast l with
      | error e1 =>
        rw [hl] at he
        cases he
        exact cll hnum.1 e hl
      | ok ls =>
        rw [hl] at he
        cases hr : statement_into_ast r with
        | error e1 =>
          rw [hr] at he
          cases he
          exact clr hnum.2 e hr
        | ok rs =>
          rw [hr] at he
          cases he
  | existential v p =>
    refine ⟨?_, ?_, ?_, ?_⟩
    · intro a ha
      simp only [statement_into_ast] at ha
      cases hv : variable_into_ast v with
      | error e1 => rw [hv] at ha; cases ha
      | ok v1 =>
        simp only [hv] at ha
        have hrel1 : List.Forall₂ (fun cv av => variable_into_ast cv = .ok av) [v] [v1] :=
          .cons hv .nil
        obtain ⟨okp, dmp, fvp, clp⟩ := predicate_master hrel1 p
        cases hp : predicate_into_ast [v1] p with
        | error e1 => rw [hp] at ha; cases ha
        | ok p1 =>
          rw [hp] at ha
          cases ha
          obtain ⟨d1, b1, dv1, sv1, q1⟩ := okp p1 hp
          refine ⟨?_, ?_, ?_, ?_, ?_⟩
          · simpa [Statement.degreeOk] using d1
          · simpa [Statement.scopeOk] using b1
          · simpa [CSTStatement.hasDegreeVio] using dv1
          · simpa [CSTStatement.hasScopeVio] using sv1
          · intro hne
            simp only [CSTStatement.termsNonempty] at hne
            simpa [Statement.degreesPos] using q1 hne
    · intro h
      simp only [statement_into_ast] at h
      cases hv : variable_into_ast v with
      | error e1 =>
        rw [hv] at h
        cases h
        rcases var_err hv with h1 | h1 <;> cases h1
      | ok v1 =>
        simp only [hv] at h
        have hrel1 : List.Forall₂ (fun cv av => variable_into_ast cv = .ok av) [v] [v1] :=
          .cons hv .nil
        obtain ⟨okp, dmp, fvp, clp⟩ := predicate_master hrel1 p
        cases hp : predicate_into_ast [v1] p with
        | error e1 =>
          rw [hp] at h
          cases h
          simpa [CSTStatement.hasDegreeVio] using dmp hp
        | ok p1 =>
          rw [hp] at h
          cases h
    · intro h
      simp only [statement_into_ast] at h
      cases hv : variable_into_ast v with
      | error e1 =>
        rw [hv] at h
        cases h
        rcases var_err hv with h1 | h1 <;> cases h1
      | ok v1 =>
        simp only [hv] at h
        have hrel1 : List.Forall₂ (fun cv av => variable_into_ast cv = .ok av) [v] [v1] :=
          .cons hv .nil
        obtain ⟨okp, dmp, fvp, clp⟩ := predicate_master hrel1 p
        cases hp : predicate_into_ast [v1] p with
        | error e1 =>
          rw [hp] at h
          cases h
          simpa [CSTStatement.hasScopeVio] using fvp hp
        | ok p1 =>
          rw [hp] at h
          cases h
    · intro hnum e he
      simp only [CSTStatement.numeralsOk, Bool.and_eq_true] at hnum
      simp only [statement_into_ast] at he
      cases hv : variable_into_ast v with
      | error e1 =>
        obtain ⟨v1, hok⟩ := var_ok_of_numeralsOk hnum.1
        rw [hok] at hv
        cases hv
      | ok v1 =>
        simp only [hv] at he
        have hrel1 : List.Forall₂ (fun cv av => variable_into_ast cv = .ok av) [v] [v1] :=
          .cons hv .nil
        obtain ⟨okp, dmp, fvp, clp⟩ := predicate_master hrel1 p
        cases hp : predicate_into_ast [v1] p with
        | error e1 =>
          rw [hp] at he
          cases he
          exact clp hnum.2 e hp
        | ok p1 =>
          rw [hp] at he
          cases he
  | universal v p =>
    refine ⟨?_, ?_, ?_, ?_⟩
    · intro a ha
      simp only [statement_into_ast] at ha
      cases hv : variable_into_ast v with
      | error e1 => rw [hv] at ha; cases ha
      | ok v1 =>
        simp only [hv] at ha
        have hrel1 : List.Forall₂ (fun cv av => variable_into_ast cv = .ok av) [v] [v1] :=
          .cons hv .nil
        obtain ⟨okp, dmp, fvp, clp⟩ := predicate_master hrel1 p
        cases hp : predicate_into_ast [v1] p with
        | error e1 => rw [hp] at ha; cases ha
        | ok p1 =>
          rw [hp] at ha
          cases ha
          obtain ⟨d1, b1, dv1, sv1, q1⟩ := okp p1 hp
          refine ⟨?_, ?_, ?_, ?_, ?_⟩
          · simpa [Statement.degreeOk] using d1
          · simpa [Statement.scopeOk] using b1
          · simpa [CSTStatement.hasDegreeVio] using dv1
          · simpa [CSTStatement.hasScopeVio] using sv1
          · intro hne
            simp only [CSTStatement.termsNonempty] at hne
            simpa [Statement.degreesPos] using q1 hne
    · intro h
      simp only [statement_into_ast] at h
      cases hv : variable_into_ast v with
      | error e1 =>
        rw [hv] at h
        cases h
        rcases var_err hv with h1 | h1 <;> cases h1
      | ok v1 =>
        simp only [hv] at h
        have hrel1 : List.Forall₂ (fun cv av => variable_into_ast cv = .ok av) [v] [v1] :=
          .cons hv .nil
        obtain ⟨okp, dmp, fvp, clp⟩ := predicate_master hrel1 p
        cases hp : predicate_into_ast [v1] p with
        | error e1 =>
          rw [hp] at h
          cases h
          simpa [CSTStatement.hasDegreeVio] using dmp hp
        | ok p1 =>
          rw [hp] at h
          cases h
    · intro h
      simp only [statement_into_ast] at h
      cases hv : variable_into_ast v with
      | error e1 =>
        rw [hv] at h
        cases h
        rcases var_err hv with h1 | h1 <;> cases h1
      | ok v1 =>
        simp only [hv] at h
        have hrel1 : List.Forall₂ (fun cv av => variable_into_ast cv = .ok av) [v] [v1] :=
          .cons hv .nil
        obtain ⟨okp, dmp, fvp, clp⟩ := predicate_master hrel1 p
        cases hp : predicate_into_ast [v1] p with
        | error e1 =>
          rw [hp] at h
          cases h
          simpa [CSTStatement.hasScopeVio] using fvp hp
        | ok p1 =>
          rw [hp] at h
          cases h
    · intro hnum e he
      simp only [CSTStatement.numeralsOk, Bool.and_eq_true] at hnum
      simp only [statement_into_ast] at he
      cases hv : variable_into_ast v with
      | error e1 =>
        obtain ⟨v1, hok⟩ := var_ok_of_numeralsOk hnum.1
        rw [hok] at hv
        cases hv
      | ok v1 =>
        simp only [hv] at he
        have hrel1 : List.Forall₂ (fun cv av => variable_into_ast cv = .ok av) [v] [v1] :=
          .cons hv .nil
        obtain ⟨okp, dmp, fvp, clp⟩ := predicate_master hrel1 p
        cases hp : predicate_into_ast [v1] p with
        | error e1 =>
          rw [hp] at he
          cases he
          exact clp hnum.2 e hp
        | ok p1 =>
          rw [hp] at he
          cases he


/-- Master characterisation of the statement loop shared by statement sets
and arguments. -/
theorem lowerStatements_master (l : List CSTStatement) :
    (∀ asts, lowerStatements l = .ok asts →
       asts.length = l.length ∧
       asts.all Statement.degreeOk = true ∧ asts.all Statement.scopeOk = true ∧
       l.any CSTStatement.hasDegreeVio = false ∧ l.any CSTStatement.hasScopeVio = false ∧
       (l.all CSTStatement.termsNonempty = true → asts.all Statement.degreesPos = true))
    ∧ (lowerStatements l = .error .degreeMismatch → l.any CSTStatement.hasDegreeVio = true)
    ∧ (lowerStatements l = .error .freeVariable → l.any CSTStatement.hasScopeVio = true)
    ∧ (l.all CSTStatement.numeralsOk = true → ∀ e, lowerStatements l = .error e →
         e = .degreeMismatch ∨ e = .freeVariable) := by
  induction l with
  | nil =>
    refine ⟨?_, ?_, ?_, ?_⟩
    · intro asts h
      cases h
      exact ⟨rfl, rfl, rfl, rfl, rfl, fun _ => rfl⟩
    · intro h
      cases h
    · intro h
      cases h
    · intro _ e he
      cases he
  | cons s rest ih =>
    obtain ⟨oks, dms, fvs, cls⟩ := statement_master s
    obtain ⟨okr, dmr, fvr, clr⟩ := ih
    refine ⟨?_, ?_, ?_, ?_⟩
    · intro asts h
      simp only [lowerStatements] at h
      cases hs : statement_into_ast s with
      | error e1 => rw [hs] at h; cases h
      | ok a =>
        simp only [hs] at h
        cases hr : lowerStatements rest with
        | error e1 => rw [hr] at h; cases h
        | ok as1 =>
          simp only [hr] at h
          cases h
          obtain ⟨d1, b1, dv1, sv1, p1⟩ := oks a hs
          obtain ⟨hlen, d2, b2, dv2, sv2, p2⟩ := okr as1 hr
          refine ⟨?_, ?_, ?_, ?_, ?_, ?_⟩
          · simp [hlen]
          · simp [d1, d2]
          · simp [b1, b2]
          · simp [dv1, dv2]
          · simp [sv1, sv2]
          · intro hne
            simp only [List.all_cons, Bool.and_eq_true] at hne
            simp [p1 hne.1, p2 hne.2]
    · intro h
      simp only [lowerStatements] at h
      cases hs : statement_into_ast s with
      | error e1 =>
        rw [hs] at h
        cases h
        simp [dms hs]
      | ok a =>
        simp only [hs] at h
        cases hr : lowerStatements rest with
        | error e1 =>
          rw [hr] at h
          cases h
          simp [dmr hr]
        | ok as1 =>
          rw [hr] at h
          cases h
    · intro h
      simp only [lowerStatements] at h
      cases hs : statement_into_ast s with
      | error e1 =>
        rw [hs] at h
        cases h
        simp [fvs hs]
      | ok a =>
        simp only [hs] at h
        cases hr : lowerStatements rest with
        | error e1 =>
          rw [hr] at h
          cases h
          simp [fvr hr]
        | ok as1 =>
          rw [hr] at h
          cases h
    · intro hnum e he
      simp only [List.all_cons, Bool.and_eq_true] at hnum
      simp only [lowerStatements] at he
      cases hs : statement_into_ast s with
      | error e1 =>
        rw [hs] at he
        cases he
        exact cls hnum.1 e hs
      | ok a =>
        simp only [hs] at he
        cases hr : lowerStatements rest with
        | error e1 =>
          rw [hr] at he
          cases he
          exact clr hnum.2 e hr
        | ok as1 =>
          rw [hr] at he
          cases he

/-- A statement list whose earliest semantic violation is a degree violation
lowers to the degree-mismatch error. -/
theorem lowerStatements_deg (l : List CSTStatement)
    (hnum : l.all CSTStatement.numeralsOk = true)
    (hsv : l.any CSTStatement.hasScopeVio = false)
    (hdv : l.any CSTStatement.hasDegreeVio = true) :
    lowerStatements l = .error .degreeMismatch := by
  obtain ⟨okl, _, fvl, cll⟩ := lowerStatements_master l
  cases h : lowerStatements l with
  | ok asts =>
    have h2 := (okl asts h).2.2.2.1
    rw [hdv] at h2
    cases h2
  | error e =>
    rcases cll hnum e h with rfl | rfl
    · rfl
    · have h2 := fvl h
      rw [hsv] at h2
      cases h2

/-- A statement list whose earliest semantic violation is a scope violation
lowers to the free-variable error. -/
theorem lowerStatements_fv (l : List CSTStatement)
    (hnum : l.all CSTStatement.numeralsOk = true)
    (hdv : l.any CSTStatement.hasDegreeVio = false)
    (hsv : l.any CSTStatement.hasScopeVio = true) :
    lowerStatements l = .error .freeVariable := by
  obtain ⟨okl, dml, _, cll⟩ := lowerStatements_master l
  cases h : lowerStatements l with
  | ok asts =>
    have h2 := (okl asts h).2.2.2.2.1
    rw [hsv] at h2
    cases h2
  | error e =>
    rcases cll hnum e h with rfl | rfl
    · have h2 := dml h
      rw [hdv] at h2
      cases h2
    · rfl

/-- What a successful `into_ast` run guarantees: the returned parse tree
satisfies the degree and scope invariants, the input has no semantic
violation, and every predicate letter has positive degree when the grammar's
one-or-more-terms shape is respected. -/
theorem into_ast_sound (cst : CSTInput) (pt : ParseTree)
    (h : into_ast cst = .ok pt) :
    pt.degreeOk = true ∧ pt.scopeOk = true ∧
    cst.hasDegreeVio = false ∧ cst.hasScopeVio = false ∧
    (cst.termsNonempty = true → pt.degreesPos = true) := by
  obtain ⟨okl, _, _, _⟩ := lowerStatements_master (match cst with
    | .statementSet l => l
    | .argument l => l)
  cases cst with
  | statementSet l =>
    simp only [into_ast, statement_set_into_ast] at h
    cases hl : lowerStatements l with
    | error e1 => rw [hl] at h; cases h
    | ok asts =>
      simp only [hl] at h
      cases h
      obtain ⟨_, d, b, dv, sv, p⟩ := okl asts hl
      exact ⟨d, b, dv, sv, p⟩
  | argument l =>
    simp only [into_ast, argument_into_ast] at h
    cases hl : lowerStatements l with
    | error e1 => rw [hl] at h; cases h
    | ok asts =>
      simp only [hl] at h
      cases hc : asts.getLast? with
      | none => rw [hc] at h; cases h
      | some c =>
        simp only [hc] at h
        cases h
        obtain ⟨_, d, b, dv, sv, p⟩ := okl asts hl
        obtain ⟨ys, rfl⟩ := List.getLast?_eq_some_iff.mp hc
        simp only [List.all_append, List.all_cons, List.all_nil, Bool.and_eq_true,
          Bool.and_true] at d b
        refine ⟨?_, ?_, dv, sv, fun hne => ?_⟩
        · simp [ParseTree.degreeOk, List.dropLast_concat, d.1, d.2]
        · simp [ParseTree.scopeOk, List.dropLast_concat, b.1, b.2]
        · have hp := p hne
          simp only [List.all_append, List.all_cons, List.all_nil, Bool.and_eq_true,
            Bool.and_true] at hp
          simp [ParseTree.degreesPos, List.dropLast_concat, hp.1, hp.2]

/-- A degree violation with decodable numerals and no scope violation makes
`into_ast` return exactly the degree-mismatch error. -/
theorem into_ast_deg (cst : CSTInput)
    (hnum : cst.numeralsOk = true)
    (hsv : cst.hasScopeVio = false)
    (hdv : cst.hasDegreeVio = true) :
    into_ast cst = .error .degreeMismatch := by
  cases cst with
  | statementSet l =>
    simp only [into_ast, statement_set_into_ast, lowerStatements_deg l hnum hsv hdv]
  | argument l =>
    simp only [into_ast, argument_into_ast, lowerStatements_deg l hnum hsv hdv]

/-- A scope violation with decodable numerals and no degree violation makes
`into_ast` return exactly the free-variable error. -/
theorem into_ast_fv (cst : CSTInput)
    (hnum : cst.numeralsOk = true)
    (hdv : cst.hasDegreeVio = false)
    (hsv : cst.hasScopeVio = true) :
    into_ast cst = .error .freeVariable := by
  cases cst with
  | statementSet l =>
    simp only [into_ast, statement_set_into_ast, lowerStatements_fv l hnum hdv hsv]
  | argument l =>
    simp only [into_ast, argument_into_ast, lowerStatements_fv l hnum hdv hsv]

/-- The statement loop distributes over concatenation when both halves
succeed. -/
theorem lowerStatements_append {l1 l2 : List CSTStatement}
    {asts1 asts2 : List Statement}
    (h1 : lowerStatements l1 = .ok asts1) (h2 : lowerStatements l2 = .ok asts2) :
    lowerStatements (l1 ++ l2) = .ok (asts1 ++ asts2) := by
  induction l1 generalizing asts1 with
  | nil =>
    cases h1
    simpa using h2
  | cons s rest ih =>
    simp only [lowerStatements] at h1
    cases hs : statement_into_ast s with
    | error e1 => rw [hs] at h1; cases h1
    | ok a =>
      simp only [hs] at h1
      cases hr : lowerStatements rest with
      | error e1 => rw [hr] at h1; cases h1
      | ok as1 =>
        simp only [hr] at h1
        cases h1
        simp only [List.cons_append, lowerStatements, hs, List.append_eq, ih hr]


/-! ### Truth-tree lemmas -/

/-- `flattenList` distributes over append. -/
theorem RTree.flattenList_append (xs ys : List RTree) :
    RTree.flattenList (xs ++ ys) = RTree.flattenList xs ++ RTree.flattenList ys := by
  induction xs with
  | nil => rfl
  | cons c cs ih => simp [RTree.flattenList, ih]

/-- Unfolding `flatten` at a node. -/
theorem RTree.flatten_node (i : Nat) (cs : List RTree) :
    (RTree.node i cs).flatten = i :: RTree.flattenList cs := rfl

/-- Membership in a flattened forest. -/
theorem RTree.mem_flattenList {x : Nat} :
    ∀ {cs : List RTree}, x ∈ RTree.flattenList cs ↔ ∃ c ∈ cs, x ∈ c.flatten := by
  intro cs
  induction cs with
  | nil => simp [RTree.flattenList]
  | cons c rest ih =>
    simp only [RTree.flattenList, List.mem_append, ih, List.mem_cons]
    constructor
    · rintro (h | ⟨c1, hc1, hx⟩)
      · exact ⟨c, Or.inl rfl, h⟩
      · exact ⟨c1, Or.inr hc1, hx⟩
    · rintro ⟨c1, hc1 | hc1, hx⟩
      · exact Or.inl (hc1 ▸ hx)
      · exact Or.inr ⟨c1, hc1, hx⟩

/-- A member's flattening is a sublist of the forest's flattening. -/
theorem RTree.flatten_sublist_flattenList {c : RTree} :
    ∀ {cs : List RTree}, c ∈ cs → List.Sublist c.flatten (RTree.flattenList cs) := by
  intro cs h
  induction cs with
  | nil => cases h
  | cons c0 rest ih =>
    rcases List.mem_cons.mp h with rfl | h0
    · exact List.sublist_append_left _ _
    · exact (ih h0).trans (List.sublist_append_right _ _)

/-- A flattening is never empty. -/
theorem RTree.flatten_length_pos (r : RTree) : 0 < r.flatten.length := by
  cases r
  simp [RTree.flatten_node]

/-- `flatten` of each member, concatenated, is `flattenList`. -/
theorem RTree.flattenList_eq_flatten_map (cs : List RTree) :
    (cs.map RTree.flatten).flatten = RTree.flattenList cs := by
  induction cs with
  | nil => rfl
  | cons c rest ih => simp [RTree.flattenList, ih]

/-- With enough fuel, the arena pre-order traversal of a subtree described
by a rose tree is exactly the rose tree's flattening. -/
theorem preorder_eq_flatten (t : TruthTree) :
    ∀ (fuel : Nat) (r : RTree), Agrees t r → r.flatten.length ≤ fuel →
      t.preorderAux fuel r.rootId = r.flatten := by
  intro fuel
  induction fuel with
  | zero =>
    intro r _ hle
    have h0 := RTree.flatten_length_pos r
    omega
  | succ n ih =>
    intro r hag hle
    cases hag with
    | node i cs hi hch hcs =>
      show t.preorderAux (n + 1) i = _
      simp only [TruthTree.preorderAux, hch, RTree.flatten_node, List.map_map]
      congr 1
      rw [← RTree.flattenList_eq_flatten_map]
      congr 1
      apply List.map_congr_left
      intro c hc
      apply ih c (hcs c hc)
      have h2 := (RTree.flatten_sublist_flattenList hc).length_le
      have h3 : (RTree.flattenList cs).length + 1 ≤ n + 1 := by
        simpa [RTree.flatten_node] using hle
      omega

/-- Every id in a described subtree is the root of a described subtree whose
flattening is a sublist. -/
theorem subtree_of_mem {t : TruthTree} {r : RTree} (hag : Agrees t r) :
    ∀ x ∈ r.flatten, ∃ rx, rx.rootId = x ∧ Agrees t rx ∧ List.Sublist rx.flatten r.flatten := by
  induction hag with
  | node i cs hi hch hcs ih =>
    intro x hx
    rw [RTree.flatten_node, List.mem_cons] at hx
    rcases hx with rfl | hx
    · exact ⟨.node x cs, rfl, .node x cs hi hch hcs, List.Sublist.refl _⟩
    · obtain ⟨c, hc, hxc⟩ := RTree.mem_flattenList.mp hx
      obtain ⟨rx, hroot, hagx, hsub⟩ := ih c hc x hxc
      refine ⟨rx, hroot, hagx, ?_⟩
      rw [RTree.flatten_node]
      exact (hsub.trans (RTree.flatten_sublist_flattenList hc)).cons i

/-- The pre-order traversal only looks at child lists. -/
theorem preorderAux_congr {t1 t2 : TruthTree}
    (h : ∀ j, t1.childrenOf j = t2.childrenOf j) :
    ∀ fuel i, t1.preorderAux fuel i = t2.preorderAux fuel i := by
  intro fuel
  induction fuel with
  | zero => intro i; rfl
  | succ n ih =>
    intro i
    simp only [TruthTree.preorderAux, h i]
    congr 1
    congr 1
    exact List.map_congr_left fun c _ => ih c

/-- Closing a branch does not change any child list. -/
theorem close_branch_childrenOf (t : TruthTree) (b j : Nat) :
    (t.close_branch b).childrenOf j = t.childrenOf j := by
  cases hb : t.nodes[b]? with
  | none => simp [TruthTree.close_branch, hb]
  | some n =>
    simp only [TruthTree.close_branch, hb]
    unfold TruthTree.childrenOf
    simp only [List.getElem?_set]
    by_cases hj : b = j
    · subst hj
      have hlt : b < t.nodes.length := by
        by_contra hge
        rw [List.getElem?_eq_none (Nat.le_of_not_lt hge)] at hb
        cases hb
      simp [hlt, hb]
    · simp [hj]

/-- Closing a branch does not change the number of branches. -/
theorem close_branch_length (t : TruthTree) (b : Nat) :
    (t.close_branch b).nodes.length = t.nodes.length := by
  cases hb : t.nodes[b]? with
  | none => simp [TruthTree.close_branch, hb]
  | some n => simp [TruthTree.close_branch, hb]

/-- Closing a branch changes no other branch's closed flag. -/
theorem close_branch_closedAt_ne (t : TruthTree) (b j : Nat) (h : j ≠ b) :
    (t.close_branch b).closedAt j = t.closedAt j := by
  cases hb : t.nodes[b]? with
  | none => simp [TruthTree.close_branch, hb]
  | some n =>
    simp only [TruthTree.close_branch, hb]
    unfold TruthTree.closedAt TruthTree.branch_from_id?
    simp [List.getElem?_set_ne (Ne.symm h)]


/-- Everything `append_branch_at` guarantees when it succeeds: the fresh id
is the old branch count, the parent was valid and not closed, the arena grew
by one, the fresh id became the parent's last child (all other child lists
untouched), and the fresh branch is stored unchanged. -/
theorem append_spec {t : TruthTree} {b : Branch} {pid : Nat} {t' : TruthTree} {nid : Nat}
    (h : t.append_branch_at b pid = some (t', nid)) :
    nid = t.nodes.length ∧
    t.closedAt pid = false ∧
    pid < t.nodes.length ∧
    t'.nodes.length = t.nodes.length + 1 ∧
    (∀ j, t'.childrenOf j = t.childrenOf j ++ (if j = pid then [nid] else [])) ∧
    (∀ j, t'.branch_from_id? j = if j = t.nodes.length then some b else t.branch_from_id? j) := by
  unfold TruthTree.append_branch_at at h
  cases hb : t.nodes[pid]? with
  | none => rw [hb] at h; cases h
  | some n =>
    simp only [hb] at h
    by_cases hcl : n.data.is_closed = true
    · rw [if_pos hcl] at h
      cases h
    · rw [if_neg hcl] at h
      cases h
      have hlt : pid < t.nodes.length := by
        obtain ⟨h1, _⟩ := List.getElem?_eq_some_iff.mp hb
        exact h1
      have hsetlen :
          (t.nodes.set pid { n with children := n.children ++ [t.nodes.length] }).length
            = t.nodes.length := by
        simp
      refine ⟨rfl, ?_, hlt, ?_, ?_, ?_⟩
      · unfold TruthTree.closedAt TruthTree.branch_from_id?
        rw [hb]
        simpa using hcl
      · simp
      · intro j
        unfold TruthTree.childrenOf
        rcases Nat.lt_trichotomy j t.nodes.length with hj | hj | hj
        · rw [show (TruthTree.mk ((t.nodes.set pid
              { n with children := n.children ++ [t.nodes.length] }) ++ [⟨b, []⟩])).nodes
              = (t.nodes.set pid { n with children := n.children ++ [t.nodes.length] })
                ++ [⟨b, []⟩] from rfl,
            List.getElem?_append_left (by rw [hsetlen]; exact hj), List.getElem?_set]
          by_cases hpj : pid = j
          · subst hpj
            simp [hlt, hb]
          · simp only [if_neg hpj, if_neg (Ne.symm hpj)]
            cases t.nodes[j]? <;> simp
        · subst hj
          rw [show (TruthTree.mk ((t.nodes.set pid
              { n with children := n.children ++ [t.nodes.length] }) ++ [⟨b, []⟩])).nodes
              = (t.nodes.set pid { n with children := n.children ++ [t.nodes.length] })
                ++ [⟨b, []⟩] from rfl]
          rw [List.getElem?_append_right hsetlen.le]
          simp only [hsetlen, Nat.sub_self]
          rw [List.getElem?_eq_none (Nat.le_refl _)]
          simp [Nat.ne_of_gt hlt]
        · rw [show (TruthTree.mk ((t.nodes.set pid
              { n with children := n.children ++ [t.nodes.length] }) ++ [⟨b, []⟩])).nodes
              = (t.nodes.set pid { n with children := n.children ++ [t.nodes.length] })
                ++ [⟨b, []⟩] from rfl]
          rw [List.getElem?_eq_none (by simp; omega)]
          rw [List.getElem?_eq_none (Nat.le_of_lt hj)]
          have : j ≠ pid := by omega
          simp [this]
      · intro j
        unfold TruthTree.branch_from_id?
        rcases Nat.lt_trichotomy j t.nodes.length with hj | hj | hj
        · rw [show (TruthTree.mk ((t.nodes.set pid
              { n with children := n.children ++ [t.nodes.length] }) ++ [⟨b, []⟩])).nodes
              = (t.nodes.set pid { n with children := n.children ++ [t.nodes.length] })
                ++ [⟨b, []⟩] from rfl,
            List.getElem?_append_left (by rw [hsetlen]; exact hj), List.getElem?_set]
          rw [if_neg (Nat.ne_of_lt hj)]
          by_cases hpj : pid = j
          · subst hpj
            simp [hlt, hb]
          · simp [hpj]
        · subst hj
          rw [show (TruthTree.mk ((t.nodes.set pid
              { n with children := n.children ++ [t.nodes.length] }) ++ [⟨b, []⟩])).nodes
              = (t.nodes.set pid { n with children := n.children ++ [t.nodes.length] })
                ++ [⟨b, []⟩] from rfl]
          rw [List.getElem?_append_right hsetlen.le]
          simp only [hsetlen, Nat.sub_self]
          simp
        · rw [show (TruthTree.mk ((t.nodes.set pid
              { n with children := n.children ++ [t.nodes.length] }) ++ [⟨b, []⟩])).nodes
              = (t.nodes.set pid { n with children := n.children ++ [t.nodes.length] })
                ++ [⟨b, []⟩] from rfl]
          rw [List.getElem?_eq_none (by simp; omega)]
          rw [List.getElem?_eq_none (Nat.le_of_lt hj)]
          simp [Nat.ne_of_gt hj]


/-- Pointwise choice over a list. -/
theorem choice_forall₂ {α β : Type} {Q : α → β → Prop} :
    ∀ (l : List α), (∀ a ∈ l, ∃ b, Q a b) → ∃ l', List.Forall₂ Q l l' := by
  intro l h
  induction l with
  | nil => exact ⟨[], .nil⟩
  | cons a rest ih =>
    obtain ⟨b, hb⟩ := h a (by simp)
    obtain ⟨l', hl'⟩ := ih fun x hx => h x (by simp [hx])
    exact ⟨b :: l', .cons hb hl'⟩

/-- Four appended blocks may be interleaved up to permutation. -/
theorem perm_blocks {α : Type} (A B C D : List α) :
    List.Perm ((A ++ B) ++ (C ++ D)) ((A ++ C) ++ (B ++ D)) := by
  rw [List.append_assoc, List.append_assoc]
  exact List.Perm.append_left A (List.perm_append_comm_assoc B C D)

/-- Extending each tree of a forest pointwise extends the forest's
flattening by one copy of the fresh id per occurrence of the target. -/
theorem flattenList_extend {pid nid : Nat} {t' : TruthTree} :
    ∀ {cs cs' : List RTree},
      List.Forall₂ (fun c c' => c'.rootId = c.rootId ∧ Agrees t' c' ∧
        c'.flatten.Perm (c.flatten ++ List.replicate (c.flatten.count pid) nid)) cs cs' →
      cs'.map RTree.rootId = cs.map RTree.rootId ∧
      (∀ c' ∈ cs', Agrees t' c') ∧
      (RTree.flattenList cs').Perm (RTree.flattenList cs ++
        List.replicate ((RTree.flattenList cs).count pid) nid) := by
  intro cs cs' h
  induction h with
  | nil => simp [RTree.flattenList]
  | @cons c c' rest rest' hc hrest ih =>
    obtain ⟨hroot, hag, hperm⟩ := hc
    obtain ⟨ihroot, ihag, ihperm⟩ := ih
    refine ⟨by simp [hroot, ihroot], ?_, ?_⟩
    · intro x hx
      rcases List.mem_cons.mp hx with rfl | hx
      · exact hag
      · exact ihag x hx
    · have h1 : (c'.flatten ++ RTree.flattenList rest').Perm
          ((c.flatten ++ List.replicate (c.flatten.count pid) nid) ++
           (RTree.flattenList rest ++
             List.replicate ((RTree.flattenList rest).count pid) nid)) :=
        List.Perm.append hperm ihperm
      have h3 := h1.trans (perm_blocks c.flatten
        (List.replicate (c.flatten.count pid) nid)
        (RTree.flattenList rest)
        (List.replicate ((RTree.flattenList rest).count pid) nid))
      have h4 : (c.flatten ++ RTree.flattenList rest) ++
          (List.replicate (c.flatten.count pid) nid ++
           List.replicate ((RTree.flattenList rest).count pid) nid)
          = (c.flatten ++ RTree.flattenList rest) ++
            List.replicate ((c.flatten ++ RTree.flattenList rest).count pid) nid := by
        rw [List.count_append, List.replicate_add]
      rw [h4] at h3
      exact h3

/-- Appending a fresh leaf under `pid` turns a rose-tree description of the
old arena into one of the new arena, adding one copy of the fresh id per
occurrence of `pid`. -/
theorem agrees_extend {t t' : TruthTree} {pid nid : Nat}
    (hlen : t'.nodes.length = t.nodes.length + 1)
    (hpid : pid < t.nodes.length)
    (hnid : nid = t.nodes.length)
    (hch : ∀ j, t'.childrenOf j = t.childrenOf j ++ (if j = pid then [nid] else []))
    {r : RTree} (h : Agrees t r) :
    ∃ r', r'.rootId = r.rootId ∧ Agrees t' r' ∧
      r'.flatten.Perm (r.flatten ++ List.replicate (r.flatten.count pid) nid) := by
  induction h with
  | node i cs hi hchi hcs ih =>
    obtain ⟨cs', hcs'⟩ := choice_forall₂ cs ih
    obtain ⟨hroot, hag, hperm⟩ := flattenList_extend hcs'
    by_cases hip : i = pid
    · refine ⟨.node i (cs' ++ [.node nid []]), rfl, ?_, ?_⟩
      · refine .node i _ (by omega) ?_ ?_
        · rw [hch i, if_pos hip]
          simp [hroot, hchi, RTree.rootId]
        · intro c hx
          rcases List.mem_append.mp hx with hx | hx
          · exact hag c hx
          · rcases List.mem_singleton.mp hx with rfl
            refine .node nid [] (by omega) ?_ (by simp)
            rw [hch nid]
            have hne : nid ≠ pid := by omega
            rw [if_neg hne]
            have hout : t.childrenOf nid = [] := by
              unfold TruthTree.childrenOf
              rw [List.getElem?_eq_none (by omega)]
            simp [hout]
      · rw [RTree.flatten_node, RTree.flatten_node, RTree.flattenList_append]
        simp only [RTree.flattenList, RTree.flatten_node, List.append_nil]
        have hcnt : (i :: RTree.flattenList cs).count pid
            = (RTree.flattenList cs).count pid + 1 := by
          rw [List.count_cons]
          simp [hip]
        rw [hcnt]
        have hstep1 : (RTree.flattenList cs' ++ [nid]).Perm
            ((RTree.flattenList cs ++
              List.replicate ((RTree.flattenList cs).count pid) nid) ++ [nid]) :=
          List.Perm.append hperm (List.Perm.refl _)
        have heq : (RTree.flattenList cs ++
              List.replicate ((RTree.flattenList cs).count pid) nid) ++ [nid]
            = RTree.flattenList cs ++
              List.replicate ((RTree.flattenList cs).count pid + 1) nid := by
          rw [List.replicate_succ', List.append_assoc]
        rw [heq] at hstep1
        exact List.Perm.cons i hstep1
    · refine ⟨.node i cs', rfl, ?_, ?_⟩
      · refine .node i _ (by omega) ?_ hag
        rw [hch i, if_neg hip, hroot]
        simp [hchi]
      · rw [RTree.flatten_node, RTree.flatten_node]
        have hcnt : (i :: RTree.flattenList cs).count pid
            = (RTree.flattenList cs).count pid := by
          rw [List.count_cons]
          simp [hip]
        rw [hcnt]
        exact List.Perm.cons i hperm

/-- A freshly constructed tree is well-formed. -/
theorem wf_new (b : Branch) : (TruthTree.mkNew b).WF := by
  refine ⟨.node 0 [], rfl, ?_, ?_⟩
  · exact .node 0 [] (by simp [TruthTree.mkNew]) rfl (by simp)
  · simp [RTree.flatten_node, RTree.flattenList, TruthTree.mkNew, List.range_succ]

/-- Closing a branch preserves well-formedness. -/
theorem wf_close (t : TruthTree) (i : Nat) (h : t.WF) : (t.close_branch i).WF := by
  obtain ⟨r, hroot, hag, hperm⟩ := h
  refine ⟨r, hroot, ?_, by rw [close_branch_length]; exact hperm⟩
  clear hperm hroot
  induction hag with
  | node j cs hj hch hcs ih =>
    refine .node j cs ?_ ?_ ih
    · rw [close_branch_length]
      exact hj
    · rw [close_branch_childrenOf]
      exact hch

/-- A successful append preserves well-formedness. -/
theorem wf_append {t : TruthTree} {b : Branch} {pid : Nat} {t' : TruthTree} {nid : Nat}
    (h : t.append_branch_at b pid = some (t', nid)) (hwf : t.WF) : t'.WF := by
  obtain ⟨hnid, _, hpid, hlen, hch, _⟩ := append_spec h
  obtain ⟨r, hroot, hag, hperm⟩ := hwf
  obtain ⟨r', hroot', hag', hperm'⟩ := agrees_extend hlen hpid hnid hch hag
  refine ⟨r', by rw [hroot', hroot], hag', ?_⟩
  have hcnt : r.flatten.count pid = 1 := by
    rw [hperm.count_eq]
    exact List.count_eq_one_of_mem (List.nodup_range _) (List.mem_range.mpr hpid)
  rw [hcnt] at hperm'
  have h2 : (r.flatten ++ List.replicate 1 nid).Perm
      (List.range t.nodes.length ++ [nid]) :=
    List.Perm.append hperm (List.Perm.refl _)
  have h3 := hperm'.trans h2
  rw [hnid] at h3
  rw [hlen, List.range_succ]
  exact h3

/-- Every tree reachable through the public API is well-formed. -/
theorem reachable_wf {t : TruthTree} (h : Reachable t) : t.WF := by
  induction h with
  | new b => exact wf_new b
  | append t b pid t' nid _ happ ih => exact wf_append happ ih
  | close t i _ ih => exact wf_close t i ih


/-! ### Claims about the truth tree -/

/-- The pre-order traversal from a valid id enumerates exactly the described
subtree. -/
theorem traverse_eq_of_agrees {t : TruthTree} {rx : RTree}
    (hagx : Agrees t rx) (hle : rx.flatten.length ≤ t.nodes.length) :
    t.traverse_downwards_branches_ids rx.rootId = rx.flatten :=
  preorder_eq_flatten t _ rx hagx hle

/-- Claim C5: for every reachable truth tree, `is_open` returns true iff at
least one leaf branch (a branch with no children) is not closed; and closing
a branch that has children (an interior branch) never changes `is_open`. -/
theorem claim_C5 (t : TruthTree) (h : Reachable t) :
    (t.is_open = true ↔ ∃ i, i < t.nodes.length ∧
       t.branch_is_last_child i = true ∧ t.closedAt i = false)
    ∧ (∀ b, t.childrenOf b ≠ [] → (t.close_branch b).is_open = t.is_open) := by
  obtain ⟨r, hroot, hag, hperm⟩ := reachable_wf h
  have hflen : r.flatten.length = t.nodes.length := by
    rw [hperm.length_eq, List.length_range]
  have htrav : t.traverse_downwards_branches_ids t.main_trunk_id = r.flatten := by
    unfold TruthTree.traverse_downwards_branches_ids TruthTree.main_trunk_id
    rw [← hroot]
    exact preorder_eq_flatten t _ r hag (by omega)
  constructor
  · unfold TruthTree.is_open
    rw [htrav, decide_eq_true_iff]
    constructor
    · intro hpos
      obtain ⟨x, hx⟩ := List.exists_mem_of_length_pos hpos
      obtain ⟨hxmem, hpx⟩ := List.mem_filter.mp hx
      simp only [Bool.and_eq_true, Bool.not_eq_eq_eq_not, Bool.not_true] at hpx
      exact ⟨x, List.mem_range.mp (hperm.mem_iff.mp hxmem), hpx.1, hpx.2⟩
    · rintro ⟨i, hi, hlc, hcl⟩
      apply List.length_pos_of_mem (a := i)
      apply List.mem_filter.mpr
      refine ⟨hperm.mem_iff.mpr (List.mem_range.mpr hi), ?_⟩
      simp [hlc, hcl]
  · intro b hb
    unfold TruthTree.is_open
    have htrav2 : (t.close_branch b).traverse_downwards_branches_ids
        ((t.close_branch b).main_trunk_id)
        = t.traverse_downwards_branches_ids t.main_trunk_id := by
      unfold TruthTree.traverse_downwards_branches_ids TruthTree.main_trunk_id
      rw [close_branch_length]
      exact preorderAux_congr (close_branch_childrenOf t b) _ _
    rw [htrav2]
    have hfil : ∀ x, ((t.close_branch b).branch_is_last_child x
        && ! (t.close_branch b).closedAt x)
        = (t.branch_is_last_child x && ! t.closedAt x) := by
      intro x
      have hlc : (t.close_branch b).branch_is_last_child x
          = t.branch_is_last_child x := by
        unfold TruthTree.branch_is_last_child
        rw [close_branch_childrenOf]
      by_cases hxb : x = b
      · subst hxb
        have hfalse : t.branch_is_last_child x = false := by
          unfold TruthTree.branch_is_last_child
          simpa [List.isEmpty_iff] using hb
        rw [hlc, hfalse]
        simp
      · rw [hlc, close_branch_closedAt_ne t b x hxb]
    rw [List.filter_congr fun x _ => hfil x]

/-- Claim C6: appending under a closed (valid) branch is the deterministic
programming error (the assert fires before any mutation, modelled by
`none`); appending under a non-closed branch inserts the branch as the new
last child of the parent and returns the fresh id, all other branches
untouched. -/
theorem claim_C6 (t : TruthTree) (b : Branch) (pid : Nat)
    (hv : pid < t.nodes.length) :
    (t.closedAt pid = true → t.append_branch_at b pid = none)
    ∧ (t.closedAt pid = false →
        ∃ t', t.append_branch_at b pid = some (t', t.nodes.length) ∧
          t'.childrenOf pid = t.childrenOf pid ++ [t.nodes.length] ∧
          t'.branch_from_id? t.nodes.length = some b ∧
          t'.childrenOf t.nodes.length = [] ∧
          (∀ j, j ≠ pid → t'.childrenOf j = t.childrenOf j) ∧
          t'.nodes.length = t.nodes.length + 1) := by
  cases hb : t.nodes[pid]? with
  | none =>
    exfalso
    rw [List.getElem?_eq_none_iff] at hb
    omega
  | some n =>
    have hcl : t.closedAt pid = n.data.is_closed := by
      unfold TruthTree.closedAt TruthTree.branch_from_id?
      rw [hb]
      rfl
    constructor
    · intro hclosed
      rw [hcl] at hclosed
      unfold TruthTree.append_branch_at
      simp only [hb]
      rw [if_pos hclosed]
    · intro hopen
      rw [hcl] at hopen
      have happ : t.append_branch_at b pid = some
          (⟨(t.nodes.set pid { n with children := n.children ++ [t.nodes.length] })
            ++ [⟨b, []⟩]⟩, t.nodes.length) := by
        unfold TruthTree.append_branch_at
        simp only [hb]
        rw [if_neg (by simp [hopen])]
      obtain ⟨_, _, _, hlen', hch, hbr⟩ := append_spec happ
      refine ⟨_, happ, ?_, ?_, ?_, ?_, hlen'⟩
      · rw [hch pid]
        simp
      · rw [hbr]
        simp
      · rw [hch t.nodes.length]
        have hneq : t.nodes.length ≠ pid := by omega
        rw [if_neg hneq]
        have hout : t.childrenOf t.nodes.length = [] := by
          unfold TruthTree.childrenOf
          rw [List.getElem?_eq_none (Nat.le_refl _)]
        simp [hout]
      · intro j hj
        rw [hch j, if_neg hj]
        simp

/-- Claim C7: for every reachable truth tree,
`traverse_downwards_branches_ids` is pre-order — it yields the start id
first, then the subtrees of its children left-to-right recursively, with no
id repeated — and from the root it enumerates exactly the valid ids, so its
length is the total number of branches. -/
theorem claim_C7 (t : TruthTree) (h : Reachable t) :
    (∀ x, x < t.nodes.length →
       t.traverse_downwards_branches_ids x
         = x :: ((t.childrenOf x).map t.traverse_downwards_branches_ids).flatten
       ∧ (t.traverse_downwards_branches_ids x).Nodup)
    ∧ (∀ j, j ∈ t.traverse_downwards_branches_ids t.main_trunk_id ↔ j < t.nodes.length)
    ∧ (t.traverse_downwards_branches_ids t.main_trunk_id).length = t.nodes.length := by
  obtain ⟨r, hroot, hag, hperm⟩ := reachable_wf h
  have hflen : r.flatten.length = t.nodes.length := by
    rw [hperm.length_eq, List.length_range]
  have hnodupR : r.flatten.Nodup := hperm.nodup_iff.mpr (List.nodup_range _)
  have htrav : t.traverse_downwards_branches_ids t.main_trunk_id = r.flatten := by
    unfold TruthTree.traverse_downwards_branches_ids TruthTree.main_trunk_id
    rw [← hroot]
    exact preorder_eq_flatten t _ r hag (by omega)
  refine ⟨?_, ?_, ?_⟩
  · intro x hx
    obtain ⟨rx, hrx, hagx, hsubx⟩ :=
      subtree_of_mem hag x (hperm.mem_iff.mpr (List.mem_range.mpr hx))
    have htx : t.traverse_downwards_branches_ids x = rx.flatten := by
      unfold TruthTree.traverse_downwards_branches_ids
      rw [← hrx]
      apply preorder_eq_flatten t _ rx hagx
      have hl := hsubx.length_le
      omega
    constructor
    · rw [htx]
      cases hagx with
      | node i cs hi hch hcs =>
        have hix : i = x := hrx
        subst hix
        rw [RTree.flatten_node, hch]
        congr 1
        rw [List.map_map, ← RTree.flattenList_eq_flatten_map]
        congr 1
        apply List.map_congr_left
        intro c hc
        show c.flatten = t.traverse_downwards_branches_ids c.rootId
        refine (preorder_eq_flatten t _ c (hcs c hc) ?_).symm
        have l1 := (RTree.flatten_sublist_flattenList hc).length_le
        have l2 := hsubx.length_le
        simp only [RTree.flatten_node, List.length_cons] at l2
        omega
    · rw [htx]
      exact hsubx.nodup hnodupR
  · intro j
    rw [htrav, hperm.mem_iff, List.mem_range]
  · rw [htrav, hflen]

/-- A concrete reachable tree: a root with one child, built through the
API. -/
theorem claim_C5_witness :
    ((TruthTree.mkNew (Branch.mkNew [⟨.simple ⟨'A', ⟨none⟩⟩, none⟩])).is_open = true ↔
      ∃ i, i < (TruthTree.mkNew (Branch.mkNew [⟨.simple ⟨'A', ⟨none⟩⟩, none⟩])).nodes.length ∧
        (TruthTree.mkNew (Branch.mkNew [⟨.simple ⟨'A', ⟨none⟩⟩, none⟩])).branch_is_last_child i
          = true ∧
        (TruthTree.mkNew (Branch.mkNew [⟨.simple ⟨'A', ⟨none⟩⟩, none⟩])).closedAt i = false)
    ∧ (∀ b, (TruthTree.mkNew (Branch.mkNew [⟨.simple ⟨'A', ⟨none⟩⟩, none⟩])).childrenOf b ≠ [] →
        ((TruthTree.mkNew (Branch.mkNew [⟨.simple ⟨'A', ⟨none⟩⟩, none⟩])).close_branch b).is_open
          = (TruthTree.mkNew (Branch.mkNew [⟨.simple ⟨'A', ⟨none⟩⟩, none⟩])).is_open) :=
  claim_C5 _ (Reachable.new _)

/-- Appending under the open root of a fresh tree succeeds with the
guarantees of C6. -/
theorem claim_C6_witness :
    ((TruthTree.mkNew (Branch.mkNew [⟨.simple ⟨'A', ⟨none⟩⟩, none⟩])).closedAt 0 = true →
      (TruthTree.mkNew (Branch.mkNew [⟨.simple ⟨'A', ⟨none⟩⟩, none⟩])).append_branch_at
        (Branch.mkNew [⟨.simple ⟨'B', ⟨none⟩⟩, none⟩]) 0 = none)
    ∧ ((TruthTree.mkNew (Branch.mkNew [⟨.simple ⟨'A', ⟨none⟩⟩, none⟩])).closedAt 0 = false →
        ∃ t', (TruthTree.mkNew (Branch.mkNew [⟨.simple ⟨'A', ⟨none⟩⟩, none⟩])).append_branch_at
            (Branch.mkNew [⟨.simple ⟨'B', ⟨none⟩⟩, none⟩]) 0
            = some (t', (TruthTree.mkNew (Branch.mkNew [⟨.simple ⟨'A', ⟨none⟩⟩, none⟩])).nodes.length) ∧
          t'.childrenOf 0 = (TruthTree.mkNew (Branch.mkNew [⟨.simple ⟨'A', ⟨none⟩⟩, none⟩])).childrenOf 0
            ++ [(TruthTree.mkNew (Branch.mkNew [⟨.simple ⟨'A', ⟨none⟩⟩, none⟩])).nodes.length] ∧
          t'.branch_from_id? (TruthTree.mkNew (Branch.mkNew [⟨.simple ⟨'A', ⟨none⟩⟩, none⟩])).nodes.length
            = some (Branch.mkNew [⟨.simple ⟨'B', ⟨none⟩⟩, none⟩]) ∧
          t'.childrenOf (TruthTree.mkNew (Branch.mkNew [⟨.simple ⟨'A', ⟨none⟩⟩, none⟩])).nodes.length = [] ∧
          (∀ j, j ≠ 0 → t'.childrenOf j
            = (TruthTree.mkNew (Branch.mkNew [⟨.simple ⟨'A', ⟨none⟩⟩, none⟩])).childrenOf j) ∧
          t'.nodes.length
            = (TruthTree.mkNew (Branch.mkNew [⟨.simple ⟨'A', ⟨none⟩⟩, none⟩])).nodes.length + 1) :=
  claim_C6 _ _ 0 (by decide)

/-- The traversal laws of C7 hold on a fresh one-branch tree. -/
theorem claim_C7_witness :
    (∀ x, x < (TruthTree.mkNew (Branch.mkNew [⟨.simple ⟨'A', ⟨none⟩⟩, none⟩])).nodes.length →
       (TruthTree.mkNew (Branch.mkNew [⟨.simple ⟨'A', ⟨none⟩⟩, none⟩])).traverse_downwards_branches_ids x
         = x :: (((TruthTree.mkNew (Branch.mkNew [⟨.simple ⟨'A', ⟨none⟩⟩, none⟩])).childrenOf x).map
            (TruthTree.mkNew (Branch.mkNew [⟨.simple ⟨'A', ⟨none⟩⟩, none⟩])).traverse_downwards_branches_ids).flatten
       ∧ ((TruthTree.mkNew (Branch.mkNew [⟨.simple ⟨'A', ⟨none⟩⟩, none⟩])).traverse_downwards_branches_ids x).Nodup)
    ∧ (∀ j, j ∈ (TruthTree.mkNew (Branch.mkNew [⟨.simple ⟨'A', ⟨none⟩⟩, none⟩])).traverse_downwards_branches_ids
          ((TruthTree.mkNew (Branch.mkNew [⟨.simple ⟨'A', ⟨none⟩⟩, none⟩])).main_trunk_id)
        ↔ j < (TruthTree.mkNew (Branch.mkNew [⟨.simple ⟨'A', ⟨none⟩⟩, none⟩])).nodes.length)
    ∧ ((TruthTree.mkNew (Branch.mkNew [⟨.simple ⟨'A', ⟨none⟩⟩, none⟩])).traverse_downwards_branches_ids
        ((TruthTree.mkNew (Branch.mkNew [⟨.simple ⟨'A', ⟨none⟩⟩, none⟩])).main_trunk_id)).length
        = (TruthTree.mkNew (Branch.mkNew [⟨.simple ⟨'A', ⟨none⟩⟩, none⟩])).nodes.length :=
  claim_C7 _ (Reachable.new _)


/-! ### Characterisation of the reported outcome -/

/-- The outcome of predicate-letter lowering is its first failing numeral
check. -/
theorem outcomeOf_letter (p : CSTPredicateLetter) :
    outcomeOf (predicate_letter_into_ast p) = p.vio := by
  cases hs : optional_subscript_into_ast p.sub with
  | error e => simp [predicate_letter_into_ast, CSTPredicateLetter.vio, hs, outcomeOf]
  | ok s =>
    cases hd : decodeNumeral superscriptDigit p.sup with
    | error e => simp [predicate_letter_into_ast, CSTPredicateLetter.vio, hs, hd, outcomeOf]
    | ok d => simp [predicate_letter_into_ast, CSTPredicateLetter.vio, hs, hd, outcomeOf]

/-- The outcome of lowering a term list is its first failing term, in
order. -/
theorem outcomeOf_lowerTerms (ts : List CSTTerm) :
    outcomeOf (lowerTerms ts) = termsVio ts := by
  induction ts with
  | nil => rfl
  | cons t rest ih =>
    cases ht : term_into_ast t with
    | error e => simp [lowerTerms, termsVio, ht, outcomeOf]
    | ok a =>
      simp only [lowerTerms, termsVio, ht, outcomeOf, Option.none_orElse]
      rw [← ih]
      cases hr : lowerTerms rest <;> simp [outcomeOf]

/-- The outcome of lowering a singular-term list is its first failing term,
in order. -/
theorem outcomeOf_lowerSingularTerms (ts : List CSTSingularTerm) :
    outcomeOf (lowerSingularTerms ts) = stermsVio ts := by
  induction ts with
  | nil => rfl
  | cons t rest ih =>
    cases ht : singular_term_into_ast t with
    | error e => simp [lowerSingularTerms, stermsVio, ht, outcomeOf]
    | ok a =>
      simp only [lowerSingularTerms, stermsVio, ht, outcomeOf, Option.none_orElse]
      rw [← ih]
      cases hr : lowerSingularTerms rest <;> simp [outcomeOf]

/-- The outcome at one `simple_predicate` site is the first failing check in
the code's order: letter numerals, term numerals, degree, scope. -/
theorem outcomeOf_simple_pred {cstStack : List CSTVariable} {stack : List Variable}
    (hrel : List.Forall₂ (fun cv av => variable_into_ast cv = .ok av) cstStack stack)
    (pl : CSTPredicateLetter) (ts : List CSTTerm) :
    outcomeOf (simple_predicate_into_ast stack pl ts)
      = (pl.vio <|> (termsVio ts <|> (degVioOutcome pl ts.length <|>
          scopeVioOutcome cstStack ts))) := by
  cases hL : predicate_letter_into_ast pl with
  | error e =>
    have h1 := outcomeOf_letter pl
    rw [hL] at h1
    simp [simple_predicate_into_ast, hL, outcomeOf, ← h1]
  | ok pl' =>
    have h1 := outcomeOf_letter pl
    rw [hL] at h1
    cases hT : lowerTerms ts with
    | error e =>
      have h2 := outcomeOf_lowerTerms ts
      rw [hT] at h2
      simp [simple_predicate_into_ast, hL, hT, outcomeOf, ← h1, ← h2]
    | ok ts' =>
      have h2 := outcomeOf_lowerTerms ts
      rw [hT] at h2
      have hlen : ts'.length = ts.length := lowerTerms_length hT
      have hvio : degreeVioAt pl ts.length = (pl'.degree.val != ts'.length) := by
        unfold degreeVioAt
        rw [degreeVal?_of_ok hL, hlen]
      have hscope : termsInScope stack ts' = ! ts.any (CSTTerm.outOfScope cstStack) :=
        termsInScope_eq hrel (lowerTerms_forall₂ hT)
      simp only [simple_predicate_into_ast, hL, hT]
      rw [← h1, ← h2]
      simp only [outcomeOf, Option.none_orElse]
      by_cases hd : pl'.degree.val = ts'.length
      · rw [if_neg (by simp [hd])]
        have hdv : degVioOutcome pl ts.length = none := by
          unfold degVioOutcome
          rw [hvio]
          simp [hd]
        rw [hdv, Option.none_orElse]
        by_cases hs : termsInScope stack ts' = true
        · rw [if_neg (by simp [hs])]
          rw [hs] at hscope
          have hany : ts.any (CSTTerm.outOfScope cstStack) = false := by
            simpa using hscope.symm
          simp [outcomeOf, scopeVioOutcome, hany]
        · rw [if_pos (by simpa using hs)]
          have hs' : termsInScope stack ts' = false := by simpa using hs
          rw [hs'] at hscope
          have hany : ts.any (CSTTerm.outOfScope cstStack) = true := by
            simpa using hscope.symm
          simp [outcomeOf, scopeVioOutcome, hany]
      · rw [if_pos hd]
        have hdv : degVioOutcome pl ts.length = some .degreeMismatch := by
          unfold degVioOutcome
          rw [hvio]
          simp [hd]
        rw [hdv]
        simp [outcomeOf]

/-- The outcome of predicate lowering is the first failing check, in the
code's traversal order. -/
theorem outcomeOf_predicate {cstStack : List CSTVariable} {stack : List Variable}
    (hrel : List.Forall₂ (fun cv av => variable_into_ast cv = .ok av) cstStack stack)
    (p : CSTPredicate) :
    outcomeOf (predicate_into_ast stack p) = p.firstVio cstStack := by
  induction p with
  | simple pl ts =>
    simp only [predicate_into_ast, CSTPredicate.firstVio]
    exact outcomeOf_simple_pred hrel pl ts
  | conjunctive l r ihl ihr =>
    simp only [predicate_into_ast, CSTPredicate.firstVio]
    cases hl : predicate_into_ast stack l with
    | error e =>
      rw [hl] at ihl
      simp [hl, outcomeOf, ← ihl]
    | ok lp =>
      rw [hl] at ihl
      cases hr : predicate_into_ast stack r with
      | error e =>
        rw [hr] at ihr
        simp [hl, hr, outcomeOf, ← ihl, ← ihr]
      | ok rp =>
        rw [hr] at ihr
        simp [hl, hr, outcomeOf, ← ihl, ← ihr]
  | negative p ih =>
    simp only [predicate_into_ast, CSTPredicate.firstVio]
    cases hp : predicate_into_ast stack p with
    | error e =>
      rw [hp] at ih
      simp [hp, outcomeOf, ← ih]
    | ok pp =>
      rw [hp] at ih
      simp [hp, outcomeOf, ← ih]
  | disjunctive l r ihl ihr =>
    simp only [predicate_into_ast, CSTPredicate.firstVio]
    cases hl : predicate_into_ast stack l with
    | error e =>
      rw [hl] at ihl
      simp [hl, outcomeOf, ← ihl]
    | ok lp =>
      rw [hl] at ihl
      cases hr : predicate_into_ast stack r with
      | error e =>
        rw [hr] at ihr
        simp [hl, hr, outcomeOf, ← ihl, ← ihr]
      | ok rp =>
        rw [hr] at ihr
        simp [hl, hr, outcomeOf, ← ihl, ← ihr]
  | conditional l r ihl ihr =>
    simp only [predicate_into_ast, CSTPredicate.firstVio]
    cases hl : predicate_into_ast stack l with
    | error e =>
      rw [hl] at ihl
      simp [hl, outcomeOf, ← ihl]
    | ok lp =>
      rw [hl] at ihl
      cases hr : predicate_into_ast stack r with
      | error e =>
        rw [hr] at ihr
        simp [hl, hr, outcomeOf, ← ihl, ← ihr]
      | ok rp =>
        rw [hr] at ihr
        simp [hl, hr, outcomeOf, ← ihl, ← ihr]

/-- The outcome of statement lowering is the first failing check, in the
code's traversal order. -/
theorem outcomeOf_statement (s : CSTStatement) :
    outcomeOf (statement_into_ast s) = s.firstVio := by
  induction s with
  | simpleLetter alpha sub =>
    cases hs : optional_subscript_into_ast sub with
    | error e => simp [statement_into_ast, CSTStatement.firstVio, hs, outcomeOf]
    | ok s1 => simp [statement_into_ast, CSTStatement.firstVio, hs, outcomeOf]
  | singular pl ts =>
    simp only [statement_into_ast, CSTStatement.firstVio]
    cases hL : predicate_letter_into_ast pl with
    | error e =>
      have h1 := outcomeOf_letter pl
      rw [hL] at h1
      simp [singular_statement_into_ast, hL, outcomeOf, ← h1]
    | ok pl' =>
      have h1 := outcomeOf_letter pl
      rw [hL] at h1
      cases hT : lowerSingularTerms ts with
      | error e =>
        have h2 := outcomeOf_lowerSingularTerms ts
        rw [hT] at h2
        simp [singular_statement_into_ast, hL, hT, outcomeOf, ← h1, ← h2]
      | ok ts' =>
        have h2 := outcomeOf_lowerSingularTerms ts
        rw [hT] at h2
        have hlen : ts'.length = ts.length := lowerSingularTerms_length hT
        have hvio : degreeVioAt pl ts.length = (pl'.degree.val != ts'.length) := by
          unfold degreeVioAt
          rw [degreeVal?_of_ok hL, hlen]
        simp only [singular_statement_into_ast, hL, hT]
        rw [← h1, ← h2]
        simp only [outcomeOf, Option.none_orElse]
        by_cases hd : pl'.degree.val = ts'.length
        · rw [if_neg (by simp [hd])]
          have hdv : degVioOutcome pl ts.length = none := by
            unfold degVioOutcome
            rw [hvio]
            simp [hd]
          rw [hdv]
        · rw [if_pos hd]
          have hdv : degVioOutcome pl ts.length = some .degreeMismatch := by
            unfold degVioOutcome
            rw [hvio]
            simp [hd]
          rw [hdv]
  | conjunction l r ihl ihr =>
    simp only [statement_into_ast, CSTStatement.firstVio]
    cases hl : statement_into_ast l with
    | error e =>
      rw [hl] at ihl
      simp [hl, outcomeOf, ← ihl]
    | ok ls =>
      rw [hl] at ihl
      cases hr : statement_into_ast r with
      | error e =>
        rw [hr] at ihr
        simp [hl, hr, outcomeOf, ← ihl, ← ihr]
      | ok rs =>
        rw [hr] at ihr
        simp [hl, hr, outcomeOf, ← ihl, ← ihr]
  | negation s ih =>
    simp only [statement_into_ast, CSTStatement.firstVio]
    cases hs : statement_into_ast s with
    | error e =>
      rw [hs] at ih
      simp [hs, outcomeOf, ← ih]
    | ok s1 =>
      rw [hs] at ih
      simp [hs, outcomeOf, ← ih]
  | disjunction l r ihl ihr =>
    simp only [statement_into_ast, CSTStatement.firstVio]
    cases hl : statement_into_ast l with
    | error e =>
      rw [hl] at ihl
      simp [hl, outcomeOf, ← ihl]
    | ok ls =>
      rw [hl] at ihl
      cases hr : statement_into_ast r with
      | error e =>
        rw [hr] at ihr
        simp [hl, hr, outcomeOf, ← ihl, ← ihr]
      | ok rs =>
        rw [hr] at ihr
        simp [hl, hr, outcomeOf, ← ihl, ← ihr]
  | conditional l r ihl ihr =>
    simp only [statement_into_ast, CSTStatement.firstVio]
    cases hl : statement_into_ast l with
    | error e =>
      rw [hl] at ihl
      simp [hl, outcomeOf, ← ihl]
    | ok ls =>
      rw [hl] at ihl
      cases hr : statement_into_ast r with
      | error e =>
        rw [hr] at ihr
        simp [hl, hr, outcomeOf, ← ihl, ← ihr]
      | ok rs =>
        rw [hr] at ihr
        simp [hl, hr, outcomeOf, ← ihl, ← ihr]
  | existential v p =>
    simp only [statement_into_ast, CSTStatement.firstVio]
    cases hv : variable_into_ast v with
    | error e => simp [hv, outcomeOf]
    | ok v1 =>
      have hrel1 : List.Forall₂ (fun cv av => variable_into_ast cv = .ok av) [v] [v1] :=
        .cons hv .nil
      have hp := outcomeOf_predicate hrel1 p
      simp only [hv, outcomeOf, Option.none_orElse]
      rw [← hp]
      cases hq : predicate_into_ast [v1] p <;> simp [outcomeOf]
  | universal v p =>
    simp only [statement_into_ast, CSTStatement.firstVio]
    cases hv : variable_into_ast v with
    | error e => simp [hv, outcomeOf]
    | ok v1 =>
      have hrel1 : List.Forall₂ (fun cv av => variable_into_ast cv = .ok av) [v] [v1] :=
        .cons hv .nil
      have hp := outcomeOf_predicate hrel1 p
      simp only [hv, outcomeOf, Option.none_orElse]
      rw [← hp]
      cases hq : predicate_into_ast [v1] p <;> simp [outcomeOf]

/-- The outcome of the statement loop is the first failing statement's first
failing check. -/
theorem outcomeOf_statements (l : List CSTStatement) :
    outcomeOf (lowerStatements l) = statementsFirstVio l := by
  induction l with
  | nil => rfl
  | cons s rest ih =>
    have hs1 := outcomeOf_statement s
    cases hs : statement_into_ast s with
    | error e =>
      rw [hs] at hs1
      simp [lowerStatements, statementsFirstVio, hs, outcomeOf, ← hs1]
    | ok a =>
      rw [hs] at hs1
      simp only [lowerStatements, statementsFirstVio, hs, ← hs1, outcomeOf,
        Option.none_orElse]
      rw [← ih]
      cases hr : lowerStatements rest <;> simp [outcomeOf]

/-- Refinement of the error-reporting order against the source: `into_ast`
returns exactly the first violation in checking order — `none` means Ok. -/
theorem outcomeOf_into_ast (cst : CSTInput) :
    outcomeOf (into_ast cst) = cst.firstVio := by
  cases cst with
  | statementSet l =>
    simp only [into_ast, statement_set_into_ast, CSTInput.firstVio]
    rw [← outcomeOf_statements l]
    cases h : lowerStatements l <;> simp [outcomeOf]
  | argument l =>
    simp only [into_ast, argument_into_ast, CSTInput.firstVio]
    have hl := outcomeOf_statements l
    cases h : lowerStatements l with
    | error e =>
      rw [h] at hl
      simp [outcomeOf, ← hl]
    | ok asts =>
      rw [h] at hl
      have hlen : asts.length = l.length := ((lowerStatements_master l).1 asts h).1
      rw [← hl]
      simp only [outcomeOf, Option.none_orElse]
      cases hc : asts.getLast? with
      | some c =>
        have hne : asts ≠ [] := by
          intro hnil
          rw [hnil] at hc
          cases hc
        have hle : l.isEmpty = false := by
          rw [List.isEmpty_eq_false]
          intro hnil
          rw [hnil] at hlen
          exact hne (List.length_eq_zero.mp hlen)
        simp [hc, outcomeOf, hle]
      | none =>
        have hnil : asts = [] := List.getLast?_eq_none_iff.mp hc
        have hle : l.isEmpty = true := by
          rw [List.isEmpty_iff]
          rw [hnil] at hlen
          exact List.length_eq_zero.mp hlen.symm
        simp [hc, outcomeOf, hle]

/-- The `<|>` of two non-pop outcomes is not the pop panic. -/
theorem orElse_ne_pop {a b : Option Outcome}
    (ha : a ≠ some .panicPop) (hb : b ≠ some .panicPop) :
    (a <|> b) ≠ some .panicPop := by
  cases a with
  | none => simpa using hb
  | some x => simpa using ha

/-- Numeral decoding never produces the pop panic. -/
theorem decode_ne_pop {tbl : Char → Option Nat} {s : List Char} :
    outcomeOf (decodeNumeral tbl s) ≠ some .panicPop := by
  cases h : decodeNumeral tbl s with
  | error e => rcases decodeNumeral_err h with rfl | rfl <;> simp [outcomeOf]
  | ok v => simp [outcomeOf]

/-- Optional-subscript lowering never produces the pop panic. -/
theorem optsub_ne_pop {o : Option (List Char)} :
    outcomeOf (optional_subscript_into_ast o) ≠ some .panicPop := by
  cases h : optional_subscript_into_ast o with
  | error e => rcases optsub_err h with rfl | rfl <;> simp [outcomeOf]
  | ok v => simp [outcomeOf]

/-- Variable lowering never produces the pop panic. -/
theorem var_ne_pop {v : CSTVariable} :
    outcomeOf (variable_into_ast v) ≠ some .panicPop := by
  cases h : variable_into_ast v with
  | error e => rcases var_err h with rfl | rfl <;> simp [outcomeOf]
  | ok v1 => simp [outcomeOf]

/-- Term lowering never produces the pop panic. -/
theorem term_ne_pop {t : CSTTerm} :
    outcomeOf (term_into_ast t) ≠ some .panicPop := by
  cases h : term_into_ast t with
  | error e => rcases term_err h with rfl | rfl <;> simp [outcomeOf]
  | ok v1 => simp [outcomeOf]

/-- Singular-term lowering never produces the pop panic. -/
theorem sterm_ne_pop {t : CSTSingularTerm} :
    outcomeOf (singular_term_into_ast t) ≠ some .panicPop := by
  cases h : singular_term_into_ast t with
  | error e => rcases sterm_err h with rfl | rfl <;> simp [outcomeOf]
  | ok v1 => simp [outcomeOf]

/-- A predicate letter's first violation is never the pop panic. -/
theorem letter_vio_ne_pop {p : CSTPredicateLetter} : p.vio ≠ some .panicPop :=
  orElse_ne_pop optsub_ne_pop decode_ne_pop

/-- A term list's first violation is never the pop panic. -/
theorem termsVio_ne_pop {ts : List CSTTerm} : termsVio ts ≠ some .panicPop := by
  induction ts with
  | nil => simp [termsVio]
  | cons t rest ih => exact orElse_ne_pop term_ne_pop ih

/-- A singular-term list's first violation is never the pop panic. -/
theorem stermsVio_ne_pop {ts : List CSTSingularTerm} : stermsVio ts ≠ some .panicPop := by
  induction ts with
  | nil => simp [stermsVio]
  | cons t rest ih => exact orElse_ne_pop sterm_ne_pop ih

/-- The degree check never produces the pop panic. -/
theorem degVioOutcome_ne_pop {pl : CSTPredicateLetter} {n : Nat} :
    degVioOutcome pl n ≠ some .panicPop := by
  unfold degVioOutcome
  split <;> simp

/-- The scope check never produces the pop panic. -/
theorem scopeVioOutcome_ne_pop {stack : List CSTVariable} {ts : List CSTTerm} :
    scopeVioOutcome stack ts ≠ some .panicPop := by
  unfold scopeVioOutcome
  split <;> simp

/-- A predicate's first violation is never the pop panic. -/
theorem predicate_firstVio_ne_pop (stack : List CSTVariable) (p : CSTPredicate) :
    p.firstVio stack ≠ some .panicPop := by
  induction p with
  | simple pl ts =>
    exact orElse_ne_pop letter_vio_ne_pop
      (orElse_ne_pop termsVio_ne_pop (orElse_ne_pop degVioOutcome_ne_pop scopeVioOutcome_ne_pop))
  | conjunctive l r ihl ihr => exact orElse_ne_pop ihl ihr
  | negative p ih => exact ih
  | disjunctive l r ihl ihr => exact orElse_ne_pop ihl ihr
  | conditional l r ihl ihr => exact orElse_ne_pop ihl ihr

/-- A statement's first violation is never the pop panic. -/
theorem statement_firstVio_ne_pop (s : CSTStatement) :
    s.firstVio ≠ some .panicPop := by
  induction s with
  | simpleLetter alpha sub => exact optsub_ne_pop
  | singular pl ts =>
    exact orElse_ne_pop letter_vio_ne_pop
      (orElse_ne_pop stermsVio_ne_pop degVioOutcome_ne_pop)
  | conjunction l r ihl ihr => exact orElse_ne_pop ihl ihr
  | negation s ih => exact ih
  | disjunction l r ihl ihr => exact orElse_ne_pop ihl ihr
  | conditional l r ihl ihr => exact orElse_ne_pop ihl ihr
  | existential v p => exact orElse_ne_pop var_ne_pop (predicate_firstVio_ne_pop [v] p)
  | universal v p => exact orElse_ne_pop var_ne_pop (predicate_firstVio_ne_pop [v] p)

/-- A statement list's first violation is never the pop panic. -/
theorem statements_firstVio_ne_pop (l : List CSTStatement) :
    statementsFirstVio l ≠ some .panicPop := by
  induction l with
  | nil => simp [statementsFirstVio]
  | cons s rest ih => exact orElse_ne_pop (statement_firstVio_ne_pop s) ih

/-- An input with a degree or scope violation has at least one statement, so
its first violation is never the pop panic. -/
theorem input_firstVio_ne_pop (cst : CSTInput)
    (h : cst.hasDegreeVio = true ∨ cst.hasScopeVio = true) :
    cst.firstVio ≠ some .panicPop := by
  cases cst with
  | statementSet l => exact statements_firstVio_ne_pop l
  | argument l =>
    have hne : l.isEmpty = false := by
      rw [List.isEmpty_eq_false]
      intro hnil
      subst hnil
      rcases h with h | h <;> simp [CSTInput.hasDegreeVio, CSTInput.hasScopeVio] at h
    simp only [CSTInput.firstVio, hne, Bool.false_eq_true, if_false, Option.orElse_none]
    exact statements_firstVio_ne_pop l

/-! ### Claims about the parser -/

/-- Claim C1 (amended): a successful parse guarantees degree agreement at
every site; an input with a degree violation never yields a parse tree; the
error `parse` reports is exactly the first violation in checking order
(`firstVio`); and that error is exactly `DegreeMismatch` whenever no
free-variable violation at an earlier-checked site and no numeral-decoding
panic is the first violation.  (As frozen the claim promised
`DegreeMismatch` unconditionally; `claim_C1_cex` shows an input whose
degree violation is reported as `FreeVariable` because an earlier site has a
free variable.) -/
theorem claim_C1 (cst : CSTInput) :
    (∀ pt, into_ast cst = .ok pt → pt.degreeOk = true ∧ cst.hasDegreeVio = false)
    ∧ (cst.hasDegreeVio = true → ∀ pt, into_ast cst ≠ .ok pt)
    ∧ outcomeOf (into_ast cst) = cst.firstVio
    ∧ (cst.hasDegreeVio = true → cst.firstVio ≠ some .freeVariable →
        cst.firstVio ≠ some .panicBadDigit → cst.firstVio ≠ some .panicNumeral →
        into_ast cst = .error .degreeMismatch) := by
  refine ⟨?_, ?_, outcomeOf_into_ast cst, ?_⟩
  · intro pt h
    obtain ⟨d, _, dv, _, _⟩ := into_ast_sound cst pt h
    exact ⟨d, dv⟩
  · intro hdv pt h
    obtain ⟨_, _, dv, _, _⟩ := into_ast_sound cst pt h
    rw [hdv] at dv
    cases dv
  · intro hdv h1 h2 h3
    have hchar := outcomeOf_into_ast cst
    cases h : into_ast cst with
    | ok pt =>
      obtain ⟨_, _, dv, _, _⟩ := into_ast_sound cst pt h
      rw [hdv] at dv
      cases dv
    | error e =>
      rw [h] at hchar
      simp only [outcomeOf] at hchar
      cases e with
      | degreeMismatch => rfl
      | freeVariable => exact absurd hchar.symm h1
      | panicBadDigit => exact absurd hchar.symm h2
      | panicNumeral => exact absurd hchar.symm h3
      | panicPop => exact absurd hchar.symm (input_firstVio_ne_pop cst (.inl hdv))

/-- Witness for C1: `{B²b, ∃zA¹y}` has a degree violation at its first
statement and a free variable at its second; the degree violation is first
in checking order, and parse returns exactly the degree-mismatch error. -/
theorem claim_C1_witness :
    into_ast (.statementSet [.singular ⟨'B', none, ['²']⟩ [⟨'b', none⟩],
      .existential ⟨'z', none⟩ (.simple ⟨'A', none, ['¹']⟩ [.var ⟨'y', none⟩])])
      = .error .degreeMismatch :=
  (claim_C1 _).2.2.2 (by decide) (by decide) (by decide) (by decide)

/-- Counterexample to C1 as frozen: `{∃zA¹y, B²b}` violates degree agreement
at its second statement, yet parse returns the free-variable error of the
first statement, not a degree-mismatch error. -/
theorem claim_C1_cex :
    (CSTInput.statementSet [CSTStatement.existential ⟨'z', none⟩
        (.simple ⟨'A', none, ['¹']⟩ [.var ⟨'y', none⟩]),
      .singular ⟨'B', none, ['²']⟩ [⟨'b', none⟩]]).hasDegreeVio = true
    ∧ into_ast (.statementSet [.existential ⟨'z', none⟩
        (.simple ⟨'A', none, ['¹']⟩ [.var ⟨'y', none⟩]),
      .singular ⟨'B', none, ['²']⟩ [⟨'b', none⟩]]) = .error .freeVariable
    ∧ into_ast (.statementSet [.existential ⟨'z', none⟩
        (.simple ⟨'A', none, ['¹']⟩ [.var ⟨'y', none⟩]),
      .singular ⟨'B', none, ['²']⟩ [⟨'b', none⟩]]) ≠ .error .degreeMismatch := by
  refine ⟨by decide, by decide, by decide⟩

/-- Claim C2 (amended): a successful parse guarantees every variable in a
predicate is bound by its enclosing quantifier; an input with a free
variable never yields a parse tree; the error `parse` reports is exactly the
first violation in checking order (`firstVio`); and that error is exactly
`FreeVariable` whenever no degree mismatch (checked first at each site) and
no numeral-decoding panic is the first violation.  (As frozen the claim
promised `FreeVariable` unconditionally; `claim_C2_cex` shows an input with
a free variable that is reported as `DegreeMismatch` because the degree
check runs first at that site.) -/
theorem claim_C2 (cst : CSTInput) :
    (∀ pt, into_ast cst = .ok pt → pt.scopeOk = true ∧ cst.hasScopeVio = false)
    ∧ (cst.hasScopeVio = true → ∀ pt, into_ast cst ≠ .ok pt)
    ∧ outcomeOf (into_ast cst) = cst.firstVio
    ∧ (cst.hasScopeVio = true → cst.firstVio ≠ some .degreeMismatch →
        cst.firstVio ≠ some .panicBadDigit → cst.firstVio ≠ some .panicNumeral →
        into_ast cst = .error .freeVariable) := by
  refine ⟨?_, ?_, outcomeOf_into_ast cst, ?_⟩
  · intro pt h
    obtain ⟨_, b, _, sv, _⟩ := into_ast_sound cst pt h
    exact ⟨b, sv⟩
  · intro hsv pt h
    obtain ⟨_, _, _, sv, _⟩ := into_ast_sound cst pt h
    rw [hsv] at sv
    cases sv
  · intro hsv h1 h2 h3
    have hchar := outcomeOf_into_ast cst
    cases h : into_ast cst with
    | ok pt =>
      obtain ⟨_, _, _, sv, _⟩ := into_ast_sound cst pt h
      rw [hsv] at sv
      cases sv
    | error e =>
      rw [h] at hchar
      simp only [outcomeOf] at hchar
      cases e with
      | degreeMismatch => exact absurd hchar.symm h1
      | freeVariable => rfl
      | panicBadDigit => exact absurd hchar.symm h2
      | panicNumeral => exact absurd hchar.symm h3
      | panicPop => exact absurd hchar.symm (input_firstVio_ne_pop cst (.inr hsv))

/-- Witness for C2: `{∃zA¹y, B²b}` has a free variable at its first
statement and a degree violation at its second; the free variable is first
in checking order, and parse returns exactly the free-variable error. -/
theorem claim_C2_witness :
    into_ast (.statementSet [.existential ⟨'z', none⟩
      (.simple ⟨'A', none, ['¹']⟩ [.var ⟨'y', none⟩]),
      .singular ⟨'B', none, ['²']⟩ [⟨'b', none⟩]])
      = .error .freeVariable :=
  (claim_C2 _).2.2.2 (by decide) (by decide) (by decide) (by decide)

/-- Counterexample to C2 as frozen: `{∃zA²y}` contains the out-of-scope
variable `y`, yet parse reports the degree mismatch of the same site, not a
free-variable error. -/
theorem claim_C2_cex :
    (CSTInput.statementSet [CSTStatement.existential ⟨'z', none⟩
        (.simple ⟨'A', none, ['²']⟩ [.var ⟨'y', none⟩])]).hasScopeVio = true
    ∧ into_ast (.statementSet [.existential ⟨'z', none⟩
        (.simple ⟨'A', none, ['²']⟩ [.var ⟨'y', none⟩])]) = .error .degreeMismatch
    ∧ into_ast (.statementSet [.existential ⟨'z', none⟩
        (.simple ⟨'A', none, ['²']⟩ [.var ⟨'y', none⟩])]) ≠ .error .freeVariable := by
  refine ⟨by decide, by decide, by decide⟩

/-- Claim C3: the input `{A₉₉₉₉₉₉₉₉₉₉₉₉₉₉₉₉₉₉₉₉}` — a subscript numeral of
twenty nines, whose value exceeds `u64::MAX` — makes
`.parse::<u64>().unwrap()` in `subscript_into_ast` panic (modelled by
`panicNumeral`), so `parse` aborts instead of returning a `ParseError`,
contradicting the claim that every input yields a returned value. -/
theorem claim_C3_bug :
    subscript_into_ast (List.replicate 20 '₉') = .error .panicNumeral
    ∧ into_ast (.statementSet [.simpleLetter 'A' (some (List.replicate 20 '₉'))])
        = .error .panicNumeral := by
  refine ⟨by decide, by decide⟩

/-- Claim C4: an argument whose statements all lower successfully parses to
`Argument(premises, conclusion)` where the conclusion is the final statement
and the premises are exactly the prior statements in source order. -/
theorem claim_C4 (ps : List CSTStatement) (c : CSTStatement)
    (asts : List Statement) (ac : Statement)
    (hps : lowerStatements ps = .ok asts)
    (hc : statement_into_ast c = .ok ac) :
    into_ast (.argument (ps ++ [c])) = .ok (.argument asts ac) := by
  have h2 : lowerStatements [c] = .ok [ac] := by
    simp [lowerStatements, hc]
  have h3 := lowerStatements_append hps h2
  simp only [into_ast, argument_into_ast, h3, List.getLast?_concat, List.dropLast_concat]

/-- Witness for C4: `A, B .:. C` parses with premises `[A, B]` in order and
conclusion `C`. -/
theorem claim_C4_witness :
    into_ast (.argument ([.simpleLetter 'A' none, .simpleLetter 'B' none]
        ++ [.simpleLetter 'C' none]))
      = .ok (.argument [.simple ⟨'A', ⟨none⟩⟩, .simple ⟨'B', ⟨none⟩⟩]
          (.simple ⟨'C', ⟨none⟩⟩)) :=
  claim_C4 _ _ _ _ (by decide) (by decide)

/-- Claim C8: `Subscript(None)` differs from `Subscript(Some(0))`, and a
`Subscript` compares equal to a bare integer (via `PartialEq<u64>`) iff it
wraps a present value equal to it — so `Subscript(None)` equals no
integer. -/
theorem claim_C8 :
    (Subscript.mk none ≠ Subscript.mk (some 0))
    ∧ (∀ (s : Subscript) (n : Nat), s.eqU64 n = true ↔ s = Subscript.mk (some n))
    ∧ (∀ n : Nat, (Subscript.mk none).eqU64 n = false) := by
  refine ⟨by decide, ?_, fun n => rfl⟩
  intro s n
  cases s with
  | mk v =>
    cases v with
    | none => simp [Subscript.eqU64]
    | some m => simp [Subscript.eqU64]

/-- Claim C9: when every predicate-application site carries at least one
term (the grammar's `singular_term+` / `term+`), every predicate letter in a
successfully parsed tree has degree at least 1. -/
theorem claim_C9 (cst : CSTInput) (pt : ParseTree)
    (hwf : cst.termsNonempty = true)
    (h : into_ast cst = .ok pt) :
    pt.degreesPos = true :=
  (into_ast_sound cst pt h).2.2.2.2 hwf

/-- Witness for C9: `{A₂¹b}` (scenario 3 of the spec) parses and its only
predicate letter has degree 1. -/
theorem claim_C9_witness :
    ParseTree.degreesPos (.statementSet
      [.singular ⟨'A', ⟨some 2⟩, ⟨1⟩⟩ [⟨'b', ⟨none⟩⟩]]) = true :=
  claim_C9 (.statementSet [.singular ⟨'A', some ['₂'], ['¹']⟩ [⟨'b', none⟩]])
    _ (by decide) (by decide)

/-- Claim C10: at a `simple_predicate` site violating both semantic checks
at once — the lowered term count differs from the letter's degree and the
scope check fails — the lowering reports the degree mismatch, because the
degree check runs first. -/
theorem claim_C10 (stack : List Variable) (letter : CSTPredicateLetter)
    (terms : List CSTTerm) (pl : PredicateLetter) (ts : List Term)
    (hL : predicate_letter_into_ast letter = .ok pl)
    (hT : lowerTerms terms = .ok ts)
    (hdeg : pl.degree.val ≠ ts.length)
    (hscope : termsInScope stack ts = false) :
    simple_predicate_into_ast stack letter terms = .error .degreeMismatch := by
  simp only [simple_predicate_into_ast, hL, hT]
  rw [if_pos hdeg]

/-- Witness for C10: the site `A²y` under the quantifier stack `[z]`
violates both checks and lowers to the degree-mismatch error. -/
theorem claim_C10_witness :
    simple_predicate_into_ast [⟨'z', ⟨none⟩⟩] ⟨'A', none, ['²']⟩
      [.var ⟨'y', none⟩] = .error .degreeMismatch :=
  claim_C10 [⟨'z', ⟨none⟩⟩] ⟨'A', none, ['²']⟩ [.var ⟨'y', none⟩]
    ⟨'A', ⟨none⟩, ⟨2⟩⟩ [.var ⟨'y', ⟨none⟩⟩]
    (by decide) (by decide) (by decide) (by decide)

end Frege
